import Mathlib

/-!
Verification of the `react-json-formfiller` core pipeline.

This file gives a shallow embedding of the library's core data
transformations — `parseJson`, `flattenObject`, `applyMapping`,
`mergeData`/`deepMerge`, `processJsonData` and the plain-state hook
`useJsonAutoFill.processJson` — and proves the specified properties about
them.

Modelling conventions:
* JavaScript values flowing through the pipeline are modelled by
  `JsonValue`; `date`/`regex` stand for `Date`/`RegExp` instances, which
  the merge/flatten code treats specially via `instanceof` checks.
* A JavaScript object is modelled as its own-enumerable entries in
  insertion order (`Fields`), with JS property assignment `o[k] = v`
  modelled by `setVal` (in-place overwrite when the key exists, append
  otherwise) and property read `o[k]` / `k in o` by `getVal`.
* `JSON.parse` is the runtime's parser, not code of this repository; a
  string input is represented by its parse outcome: `none` for a syntax
  error, `some v` for the parsed value.  Values actually produced by
  `JSON.parse` never contain `date`/`regex` nodes; `jsonParseable`
  captures that restriction.
* Asynchronous callbacks (`transform`, `validate`, `onBeforeFill`) are
  modelled as pure functions into `Except Thrown _`; an `error` result
  models the callback throwing.
-/

inductive JsonValue where
  | str (s : String)
  | num (n : Int)
  | bool (b : Bool)
  | null
  | date (t : Nat)
  | regex (p : String)
  | arr (xs : List JsonValue)
  | obj (fs : List (String × JsonValue))
  deriving Repr

/-- Own-enumerable entries of a JS object, in insertion order. -/
abbrev Fields := List (String × JsonValue)

/-- JS property assignment `o[k] = v`: overwrite in place if `k` is already
a key of `o`, otherwise append the new entry at the end. -/
def setVal (fs : Fields) (k : String) (v : JsonValue) : Fields :=
  if fs.any (fun p => p.1 = k) then
    fs.map (fun p => if p.1 = k then (k, v) else p)
  else
    fs ++ [(k, v)]

/-- JS property read `o[k]` restricted to own properties: `none` models
`undefined`. -/
def getVal (fs : Fields) (k : String) : Option JsonValue :=
  match fs with
  | [] => none
  | (k', v) :: rest => if k' = k then some v else getVal rest k

/-- The keys of an object, in order. -/
def keysOf (fs : Fields) : List String := fs.map Prod.fst

/-- Boolean test that a key list has no duplicates (JS objects cannot
have duplicate keys, so embedded objects are assumed to satisfy this). -/
def nodupKeysB : List String → Bool
  | [] => true
  | k :: rest => !(rest.contains k) && nodupKeysB rest

/-- Folding JS assignment over a source object: models copying the entries
of `src` into `acc` one by one, as object spread `{...acc, ...src}` does. -/
def objAssign (acc : Fields) (src : Fields) : Fields :=
  src.foldl (fun a p => setVal a p.1 p.2) acc

/-- JS object spread `{...a, ...b}`: a fresh object receiving `a`'s entries
then `b`'s entries by assignment. -/
def spreadTwo (a b : Fields) : Fields := objAssign (objAssign [] a) b

/-! ### src/types.ts -/

inductive JsonErrorCode where
  | PARSE_ERROR
  | VALIDATION_ERROR
  | FILE_READ_ERROR
  | FILE_TOO_LARGE
  | INVALID_FILE_TYPE
  deriving Repr, DecidableEq

/-- The `JsonAutoFillError` class: a message plus one of five error codes. -/
structure JsonAutoFillError where
  message : String
  code : JsonErrorCode
  deriving Repr, DecidableEq

inductive MergeStrategy where
  | merge
  | replace
  | strict
  | deep
  deriving Repr, DecidableEq

/-! ### src/core/mergeStrategies.ts -/

/-- `typeof v === "object"` (true for `null`, arrays, dates, regexes and
plain objects in JavaScript). -/
def typeofIsObject : JsonValue → Bool
  | .str _ => false
  | .num _ => false
  | .bool _ => false
  | _ => true

def isNullV : JsonValue → Bool
  | .null => true
  | _ => false

def isArrayV : JsonValue → Bool
  | .arr _ => true
  | _ => false

def isDateV : JsonValue → Bool
  | .date _ => true
  | _ => false

def isRegexV : JsonValue → Bool
  | .regex _ => true
  | _ => false

/-- `isPlainObject` from mergeStrategies.ts: `typeof value === "object"`,
not `null`, not an array, not a `Date`, not a `RegExp`. -/
def isPlainObject (value : JsonValue) : Bool :=
  typeofIsObject value && !isNullV value && !isArrayV value &&
    !isDateV value && !isRegexV value

/-- The body of the `"strict"` case: reduce over `Object.keys(current)`,
copying `incoming[key]` into a fresh accumulator when `key in incoming`. -/
def strictFiltered (current incoming : Fields) : Fields :=
  current.foldl
    (fun acc p =>
      match getVal incoming p.1 with
      | some w => setVal acc p.1 w
      | none => acc)
    []

mutual
/-- `deepMerge`'s loop: `const result = {...target}` (passed in as
`result`), then for each key of `source` assign either the recursive merge
(when both sides are plain objects) or the source value. -/
def deepMergeFields : Fields → Fields → Fields → Fields
  | _, [], result => result
  | target, (k, sourceVal) :: rest, result =>
      deepMergeFields target rest
        (setVal result k (deepMergeVal (getVal target k) sourceVal))

/-- Per-key decision of `deepMerge`: `isPlainObject(targetVal) &&
isPlainObject(sourceVal)` holds exactly for two `obj` nodes (a missing
target key reads as `undefined`, which is not a plain object), in which
case the merge recurses; otherwise the source value overwrites. -/
def deepMergeVal : Option JsonValue → JsonValue → JsonValue
  | some (JsonValue.obj tf), JsonValue.obj sf =>
      JsonValue.obj (deepMergeFields tf sf (objAssign [] tf))
  | _, sv => sv
end

/-- `deepMerge(target, source)` from mergeStrategies.ts. -/
def deepMerge (target source : Fields) : Fields :=
  deepMergeFields target source (objAssign [] target)

/-- `mergeData(current, incoming, strategy)` from mergeStrategies.ts. -/
def mergeData (current incoming : Fields) (strategy : MergeStrategy) : Fields :=
  match strategy with
  | .replace => incoming
  | .strict => spreadTwo current (strictFiltered current incoming)
  | .deep => deepMerge current incoming
  | .merge => spreadTwo current incoming

/-! ### src/core/parseJson.ts -/

def DANGEROUS_KEYS : List String := ["__proto__", "constructor", "prototype"]

mutual
/-- `assertNoPrototypePollution` from parseJson.ts, returning the first
offending key (the function throws on it) or `none`.  `typeof obj` is
`"object"` for objects, arrays, dates and regexes, and the scan walks
`Object.keys`: an object's own enumerable keys, an array's indices (never
dangerous, so only the elements matter), and nothing for dates/regexes. -/
def findDanger : JsonValue → Option String
  | .obj fs => findDangerFields fs
  | .arr xs => findDangerList xs
  | _ => none

def findDangerFields : Fields → Option String
  | [] => none
  | (k, v) :: rest =>
      if DANGEROUS_KEYS.contains k then some k
      else
        match findDanger v with
        | some d => some d
        | none => findDangerFields rest

def findDangerList : List JsonValue → Option String
  | [] => none
  | v :: rest =>
      match findDanger v with
      | some d => some d
      | none => findDangerList rest
end

/-- Models the `parsed as Record<string, unknown>` cast at the end of
`parseJson`; for values `JSON.parse` can produce, the top-level check has
already guaranteed an object by this point. -/
def asFields : JsonValue → Fields
  | .obj fs => fs
  | _ => []

mutual
/-- True when a value is one `JSON.parse` can produce (no `Date`/`RegExp`
nodes anywhere). -/
def jsonParseable : JsonValue → Bool
  | .str _ => true
  | .num _ => true
  | .bool _ => true
  | .null => true
  | .date _ => false
  | .regex _ => false
  | .arr xs => jsonParseableList xs
  | .obj fs => jsonParseableFields fs

def jsonParseableList : List JsonValue → Bool
  | [] => true
  | v :: rest => jsonParseable v && jsonParseableList rest

def jsonParseableFields : Fields → Bool
  | [] => true
  | (_, v) :: rest => jsonParseable v && jsonParseableFields rest
end

/-- `parseJson(text)` from parseJson.ts.  The argument is the outcome of
`JSON.parse(text)`: `none` models a syntax error (caught and rewrapped),
`some parsed` the successfully parsed value. -/
def parseJson (parseResult : Option JsonValue) : Except JsonAutoFillError Fields :=
  match parseResult with
  | none => Except.error { message := "Invalid JSON file", code := .PARSE_ERROR }
  | some parsed =>
      if !(typeofIsObject parsed) || isNullV parsed || isArrayV parsed then
        Except.error
          { message := "JSON must be a top-level object (not an array or primitive)",
            code := .PARSE_ERROR }
      else
        match findDanger parsed with
        | some key =>
            Except.error
              { message := "Potentially dangerous key \x22" ++ key ++ "\x22 found in JSON",
                code := .PARSE_ERROR }
        | none => Except.ok (asFields parsed)

/-! ### src/core/flattenObject.ts -/

/-- `parentKey ? parentKey + "." + key : key` — the empty string is the
only falsy string in JavaScript. -/
def joinKey (parent k : String) : String :=
  if parent = "" then k else parent ++ "." ++ k

mutual
/-- The loop of `flattenObject(obj, parentKey, result)`: for each own key,
either recurse (non-null objects that are not arrays and not dates; note
`RegExp` is *not* excluded here) or assign the value verbatim. -/
def flattenFields : Fields → String → Fields → Fields
  | [], _, result => result
  | (k, v) :: rest, parentKey, result =>
      flattenFields rest parentKey (flattenOne v (joinKey parentKey k) result)

/-- One entry of the flatten loop.  A `regex` value satisfies the recursion
condition but has no own enumerable keys, so recursing into it contributes
nothing; every other non-recursed value is assigned verbatim. -/
def flattenOne : JsonValue → String → Fields → Fields
  | .obj fs, newKey, result => flattenFields fs newKey result
  | .regex _, _, result => result
  | v, newKey, result => setVal result newKey v
end

/-- `flattenObject(obj)` with the default `parentKey = ""` and fresh
accumulator. -/
def flattenObject (fs : Fields) : Fields := flattenFields fs "" []

/-! ### src/core/applyMapping.ts -/

/-- Lookup in the caller-supplied `fieldMap` dictionary (own property
access `fieldMap[key]`). -/
def lookupStr : List (String × String) → String → Option String
  | [], _ => none
  | (k, v) :: rest, key => if k = key then some v else lookupStr rest key

/-- `applyMapping(data, fieldMap)`: identity when no map is given,
otherwise rebuild the object assigning each value under
`fieldMap[key] ?? key`. -/
def applyMapping (data : Fields) (fieldMap : Option (List (String × String))) : Fields :=
  match fieldMap with
  | none => data
  | some fm =>
      data.foldl
        (fun mapped p => setVal mapped ((lookupStr fm p.1).getD p.1) p.2)
        []

/-! ### src/core/processJsonData.ts and src/hooks/useJsonAutoFill.ts -/

/-- A value thrown by a pipeline stage or callback: either the library's
typed error or some other thrown `Error` (carrying its message). -/
inductive Thrown where
  | typed (e : JsonAutoFillError)
  | untyped (msg : String)
  deriving Repr, DecidableEq

/-- The `catch` normalisation in `useJsonAutoFill.processJson`: a
`JsonAutoFillError` passes through, anything else is wrapped with code
`PARSE_ERROR` and the original message. -/
def normalizeError : Thrown → JsonAutoFillError
  | .typed e => e
  | .untyped msg => { message := msg, code := .PARSE_ERROR }

/-- `string | Record<string, unknown>` input to the pipeline: a string is
represented by its `JSON.parse` outcome, an object input by its entries. -/
inductive JsonInput where
  | text (parseResult : Option JsonValue)
  | objInput (fs : Fields)

/-- The recognised pipeline options (`JsonAutoFillOptions`), with each
absent option as `none` and callbacks as pure functions that may throw. -/
structure Options where
  mergeStrategy : Option MergeStrategy := none
  fieldMap : Option (List (String × String)) := none
  flatten : Option Bool := none
  transform : Option (Fields → Except Thrown Fields) := none
  validate : Option (Fields → Except Thrown Bool) := none
  onBeforeFill : Option (Fields → Except Thrown Bool) := none

/-- `processJsonData(jsonInput, options)` from processJsonData.ts:
parse → flatten (unless `flatten === false`) → map → transform →
validate → `onBeforeFill` gate.  The returned `Bool` is the `cancelled`
flag. -/
def processJsonData (jsonInput : JsonInput) (options : Options) :
    Except Thrown (Fields × Bool) :=
  match
    (match jsonInput with
     | .text r => (parseJson r).mapError Thrown.typed
     | .objInput fs => Except.ok fs) with
  | .error e => .error e
  | .ok parsed =>
      let processed := if options.flatten ≠ some false then flattenObject parsed else parsed
      let mapped := applyMapping processed options.fieldMap
      match
        (match options.transform with
         | some f => f mapped
         | none => Except.ok mapped) with
      | .error e => .error e
      | .ok transformed =>
          match
            (match options.validate with
             | some f => f transformed
             | none => Except.ok true) with
          | .error e => .error e
          | .ok isValid =>
              if !isValid then
                .error (.typed { message := "Validation failed", code := .VALIDATION_ERROR })
              else
                match
                  (match options.onBeforeFill with
                   | some g => g transformed
                   | none => Except.ok true) with
                | .error e => .error e
                | .ok shouldProceed =>
                    if shouldProceed = false then .ok (transformed, true)
                    else .ok (transformed, false)

/-- Stages 1–5 of `processJsonData` (parse, flatten, map, transform,
validate), without the `onBeforeFill` gate: the working value the gate is
offered, or the error thrown before it.  Used to state that cancellation
is decided exactly by `onBeforeFill` returning `false`. -/
def pipelineValue (jsonInput : JsonInput) (options : Options) :
    Except Thrown Fields :=
  match
    (match jsonInput with
     | .text r => (parseJson r).mapError Thrown.typed
     | .objInput fs => Except.ok fs) with
  | .error e => .error e
  | .ok parsed =>
      let processed := if options.flatten ≠ some false then flattenObject parsed else parsed
      let mapped := applyMapping processed options.fieldMap
      match
        (match options.transform with
         | some f => f mapped
         | none => Except.ok mapped) with
      | .error e => .error e
      | .ok transformed =>
          match
            (match options.validate with
             | some f => f transformed
             | none => Except.ok true) with
          | .error e => .error e
          | .ok isValid =>
              if !isValid then
                .error (.typed { message := "Validation failed", code := .VALIDATION_ERROR })
              else .ok transformed

/-- Observable actions of one `processJson` call of the plain-state hook,
in the order the code performs them.  `applied` is the state-setter call;
`afterFill`/`success`/`errorCb` are the sites where the optional
`onAfterFill`/`onSuccess`/`onError` callbacks are invoked (each fires only
when the corresponding callback was configured). -/
inductive HookEvent where
  | applied (newState : Fields)
  | afterFill (data : Fields)
  | success (data : Fields)
  | errorCb (e : JsonAutoFillError)
  deriving Repr

/-- Result of one `processJson` call: the resolved boolean, the state
container's value afterwards (`state = prev` when nothing was applied),
and the ordered event trace. -/
structure HookRun where
  result : Bool
  state : Fields
  events : List HookEvent
  deriving Repr

/-- `processJson` of `useJsonAutoFill` (plain-state binding): run the
pipeline; on a thrown error, normalise it, call `onError`, resolve
`false`; on cancellation resolve `false` with nothing applied; otherwise
apply `mergeData(prev, data, strategy)` via the state setter, then call
`onAfterFill` then `onSuccess`, and resolve `true`. -/
def processJson (prev : Fields) (options : Options) (input : JsonInput) : HookRun :=
  match processJsonData input options with
  | .error err =>
      { result := false, state := prev, events := [.errorCb (normalizeError err)] }
  | .ok (_, true) =>
      { result := false, state := prev, events := [] }
  | .ok (data, false) =>
      let strategy := options.mergeStrategy.getD .merge
      let newState := mergeData prev data strategy
      { result := true, state := newState,
        events := [.applied newState, .afterFill data, .success data] }

/-! ### Spec-side definitions

These are written from the specification's wording, not from the source,
and are compared against the embedded code. -/

mutual
/-- Spec-side: every value reachable from `v` (the value itself, object
member values and array elements, at any depth). -/
def reachableValues : JsonValue → List JsonValue
  | .obj fs => JsonValue.obj fs :: reachableValuesFields fs
  | .arr xs => JsonValue.arr xs :: reachableValuesList xs
  | v => [v]

def reachableValuesFields : Fields → List JsonValue
  | [] => []
  | (_, v) :: rest => reachableValues v ++ reachableValuesFields rest

def reachableValuesList : List JsonValue → List JsonValue
  | [] => []
  | v :: rest => reachableValues v ++ reachableValuesList rest
end

/-- Spec-side: the parsed structure contains, at some nesting depth, a key
literally equal to one of the reserved names. -/
def specHasReservedKey (v : JsonValue) : Prop :=
  ∃ w ∈ reachableValues v, ∃ fs, w = JsonValue.obj fs ∧ ∃ p ∈ fs, p.1 ∈ DANGEROUS_KEYS

/-- Spec-side: splitting a character list at every `'.'`. -/
def splitOnDotL : List Char → List (List Char)
  | [] => [[]]
  | c :: rest =>
      if c = '.' then [] :: splitOnDotL rest
      else
        match splitOnDotL rest with
        | [] => [[c]]
        | seg :: segs => (c :: seg) :: segs

/-- Spec-side: dot-path segmentation of a key. -/
def splitDots (s : String) : List String :=
  (splitOnDotL s.toList).map (fun cs => String.mk cs)

/-- Spec-side: insert a value at a dot-path, materialising intermediate
objects (an existing object at an intermediate key is extended, anything
else is replaced by a fresh object). -/
def insertPath : Fields → List String → JsonValue → Fields
  | o, [], _ => o
  | o, [k], v => setVal o k v
  | o, k :: rest, v =>
      let sub :=
        match getVal o k with
        | some (JsonValue.obj fs) => fs
        | _ => []
      setVal o k (JsonValue.obj (insertPath sub rest v))

/-- Spec-side un-flatten: dot-path reconstruction of a nested object from
a flat dot-keyed object. -/
def unflatten (flat : Fields) : Fields :=
  flat.foldl (fun acc p => insertPath acc (splitDots p.1) p.2) []

/-- Folding `insertPath` over a list of already-split (path, value) pairs;
`unflatten` is this fold composed with `splitDots` on every key. -/
def unflattenPaths (acc : Fields) (l : List (List String × JsonValue)) : Fields :=
  l.foldl (fun o pv => insertPath o pv.1 pv.2) acc

/-- Primitive leaf in the sense of the spec: strings, numbers, booleans
and null. -/
def isPrimitive : JsonValue → Bool
  | .str _ => true
  | .num _ => true
  | .bool _ => true
  | .null => true
  | _ => false

mutual
/-- Spec-side: a tree all of whose leaf values are primitives.  An object
value must itself be non-empty (an empty object is a leaf, and not a
primitive one); arrays, dates and regexes are non-primitive leaves. -/
def primTree : JsonValue → Bool
  | .obj fs => !fs.isEmpty && primFields fs
  | v => isPrimitive v

def primFields : Fields → Bool
  | [] => true
  | (_, v) :: rest => primTree v && primFields rest
end

mutual
/-- No duplicate keys at any nesting level. -/
def nodupDeepFields : Fields → Bool
  | [] => true
  | (k, v) :: rest =>
      !((rest.map Prod.fst).contains k) && nodupDeepV v && nodupDeepFields rest

def nodupDeepV : JsonValue → Bool
  | .obj fs => nodupDeepFields fs
  | _ => true
end

/-- The key contains no `'.'` character. -/
def noDotStr (s : String) : Bool := s.toList.all (fun c => !(c = '.' : Bool))

mutual
/-- No key at any nesting level contains a dot. -/
def noDotFields : Fields → Bool
  | [] => true
  | (k, v) :: rest => noDotStr k && noDotV v && noDotFields rest

def noDotV : JsonValue → Bool
  | .obj fs => noDotFields fs
  | _ => true
end

/-- No top-level key is the empty string with an object value (the empty
string is falsy in JavaScript, so `flattenObject` silently splices such a
subtree into the top level). -/
def topKeysOk : Fields → Bool
  | [] => true
  | (k, v) :: rest =>
      (match v with
       | .obj _ => !(k = "" : Bool)
       | _ => true) && topKeysOk rest

mutual
/-- Spec-side: the leaves of a nested object as (path, value) pairs in
traversal order, descending only into object values. -/
def leavesOf : Fields → List (List String × JsonValue)
  | [] => []
  | (k, v) :: rest => leavesOne k v ++ leavesOf rest

def leavesOne (k : String) : JsonValue → List (List String × JsonValue)
  | .obj fs => (leavesOf fs).map (fun pv => (k :: pv.1, pv.2))
  | v => [([k], v)]
end

/-! ### Basic lemmas about the object model -/

theorem any_key_iff_mem (fs : Fields) (k : String) :
    (fs.any (fun p => p.1 = k)) = true ↔ k ∈ keysOf fs := by
  rw [List.any_eq_true]
  unfold keysOf
  rw [List.mem_map]
  constructor
  · rintro ⟨p, hp, he⟩
    exact ⟨p, hp, by simpa using he⟩
  · rintro ⟨p, hp, he⟩
    exact ⟨p, hp, by simpa using he⟩

theorem getVal_append (fs gs : Fields) (k : String) :
    getVal (fs ++ gs) k =
      match getVal fs k with
      | some v => some v
      | none => getVal gs k := by
  induction fs with
  | nil => simp [getVal]
  | cons p rest ih =>
      obtain ⟨k', v⟩ := p
      by_cases h : k' = k <;> simp [getVal, h, ih]

theorem getVal_none_iff_any_false (fs : Fields) (k : String) :
    getVal fs k = none ↔ fs.any (fun p => p.1 = k) = false := by
  induction fs with
  | nil => simp [getVal]
  | cons p rest ih =>
      obtain ⟨k', v⟩ := p
      by_cases h : k' = k <;> simp [getVal, h, ih]

theorem getVal_none_iff_not_mem (fs : Fields) (k : String) :
    getVal fs k = none ↔ k ∉ keysOf fs := by
  rw [getVal_none_iff_any_false]
  constructor
  · intro h hmem
    have hb := (any_key_iff_mem fs k).mpr hmem
    rw [hb] at h
    cases h
  · intro h
    cases hb : fs.any (fun p => p.1 = k)
    · rfl
    · exact absurd ((any_key_iff_mem fs k).mp hb) h

theorem getVal_map_overwrite (fs : Fields) (k : String) (v : JsonValue) (j : String) :
    getVal (fs.map (fun p => if p.1 = k then (k, v) else p)) j =
      if k = j then (getVal fs k).map (fun _ => v) else getVal fs j := by
  induction fs with
  | nil => simp [getVal]
  | cons p rest ih =>
      obtain ⟨k', w⟩ := p
      show getVal ((if k' = k then (k, v) else (k', w)) ::
          rest.map (fun p => if p.1 = k then (k, v) else p)) j = _
      by_cases h1 : k' = k
      · subst h1
        rw [if_pos rfl]
        by_cases h2 : k' = j
        · subst h2
          simp [getVal]
        · have h2' : ¬ (k' = j) := h2
          simp only [getVal, if_neg h2', ih, if_neg h2]
      · rw [if_neg h1]
        by_cases h2 : k' = j
        · subst h2
          have hkj : ¬ (k = k') := fun h => h1 h.symm
          simp [getVal, ih, hkj]
        · simp only [getVal, if_neg h2, ih]
          by_cases h3 : k = j
          · subst h3
            have h1' : ¬ (k' = k) := h1
            simp [getVal, if_neg h1']
          · simp [getVal, h3]

theorem getVal_setVal (fs : Fields) (k : String) (v : JsonValue) (j : String) :
    getVal (setVal fs k v) j = if k = j then some v else getVal fs j := by
  unfold setVal
  by_cases h : fs.any (fun p => p.1 = k) = true
  · rw [if_pos h, getVal_map_overwrite]
    by_cases hj : k = j
    · subst hj
      have hne : ¬ (getVal fs k = none) := by
        rw [getVal_none_iff_any_false]
        simp [h]
      cases hg : getVal fs k with
      | none => exact absurd hg hne
      | some w => simp
    · simp [hj]
  · have h' : fs.any (fun p => p.1 = k) = false := by
      cases hb : fs.any (fun p => p.1 = k)
      · rfl
      · exact absurd hb h
    rw [if_neg h, getVal_append]
    have hnone : getVal fs k = none := by
      rw [getVal_none_iff_any_false]
      exact h'
    by_cases hj : k = j
    · subst hj
      simp [hnone, getVal]
    · cases hg : getVal fs j with
      | none =>
          have hj' : ¬ (k = j) := hj
          simp [getVal, if_neg hj']
      | some w => simp [if_neg hj]

theorem keysOf_setVal_mem (fs : Fields) (k : String) (v : JsonValue)
    (h : k ∈ keysOf fs) :
    keysOf (setVal fs k v) = keysOf fs := by
  unfold setVal
  rw [if_pos ((any_key_iff_mem fs k).mpr h)]
  unfold keysOf
  rw [List.map_map]
  apply List.map_congr_left
  intro p _
  by_cases hpk : p.1 = k <;> simp [hpk]

theorem keysOf_setVal_not_mem (fs : Fields) (k : String) (v : JsonValue)
    (h : k ∉ keysOf fs) :
    keysOf (setVal fs k v) = keysOf fs ++ [k] := by
  have hany : fs.any (fun p => p.1 = k) = false := by
    cases hb : fs.any (fun p => p.1 = k)
    · rfl
    · exact absurd ((any_key_iff_mem fs k).mp hb) h
  unfold setVal
  rw [if_neg (by simp [hany])]
  simp [keysOf]

theorem setVal_append_of_not_mem (fs : Fields) (k : String) (v : JsonValue)
    (h : k ∉ keysOf fs) :
    setVal fs k v = fs ++ [(k, v)] := by
  have hany : fs.any (fun p => p.1 = k) = false := by
    cases hb : fs.any (fun p => p.1 = k)
    · rfl
    · exact absurd ((any_key_iff_mem fs k).mp hb) h
  unfold setVal
  rw [if_neg (by simp [hany])]

/-! ### Lemmas about object spread and assignment folding -/

theorem objAssign_cons (acc : Fields) (p : String × JsonValue) (src : Fields) :
    objAssign acc (p :: src) = objAssign (setVal acc p.1 p.2) src := rfl

theorem getVal_objAssign (src : Fields) :
    ∀ acc, (keysOf src).Nodup → ∀ k,
      getVal (objAssign acc src) k =
        match getVal src k with
        | some v => some v
        | none => getVal acc k := by
  induction src with
  | nil => intro acc _ k; simp [objAssign, getVal]
  | cons p rest ih =>
      intro acc hnd k
      obtain ⟨k0, v0⟩ := p
      have hnd' : (keysOf rest).Nodup ∧ k0 ∉ keysOf rest := by
        have : keysOf ((k0, v0) :: rest) = k0 :: keysOf rest := rfl
        rw [this] at hnd
        exact ⟨hnd.of_cons, (List.nodup_cons.mp hnd).1⟩
      rw [objAssign_cons, ih _ hnd'.1 k]
      by_cases hk : k0 = k
      · subst hk
        have : getVal rest k0 = none := (getVal_none_iff_not_mem rest k0).mpr hnd'.2
        simp [this, getVal, getVal_setVal]
      · simp [getVal, hk, getVal_setVal]

theorem keysOf_objAssign_subset (src : Fields) :
    ∀ acc, (∀ k ∈ keysOf src, k ∈ keysOf acc) →
      keysOf (objAssign acc src) = keysOf acc := by
  induction src with
  | nil => intro acc _; rfl
  | cons p rest ih =>
      intro acc hsub
      obtain ⟨k0, v0⟩ := p
      rw [objAssign_cons]
      have hmem : k0 ∈ keysOf acc := hsub k0 (by simp [keysOf])
      have hkeys : keysOf (setVal acc k0 v0) = keysOf acc := keysOf_setVal_mem acc k0 v0 hmem
      rw [ih _ (fun k hk => by rw [hkeys]; exact hsub k (by simp [keysOf]; right; simpa [keysOf] using hk))]
      exact hkeys

theorem objAssign_fresh_append (src : Fields) :
    ∀ acc, (keysOf src).Nodup → (∀ k ∈ keysOf src, k ∉ keysOf acc) →
      objAssign acc src = acc ++ src := by
  induction src with
  | nil => intro acc _ _; simp [objAssign]
  | cons p rest ih =>
      intro acc hnd hfresh
      obtain ⟨k0, v0⟩ := p
      have hk0 : keysOf ((k0, v0) :: rest) = k0 :: keysOf rest := rfl
      rw [hk0] at hnd
      have hnotacc : k0 ∉ keysOf acc := hfresh k0 (by simp [keysOf])
      rw [objAssign_cons]
      show objAssign (setVal acc k0 v0) rest = acc ++ (k0, v0) :: rest
      rw [setVal_append_of_not_mem acc k0 v0 hnotacc]
      rw [ih (acc ++ [(k0, v0)]) hnd.of_cons]
      · simp
      · intro k hk
        have hkne : k ≠ k0 := by
          intro he
          subst he
          exact (List.nodup_cons.mp hnd).1 hk
        have hknacc : k ∉ keysOf acc := hfresh k (by simp [keysOf]; right; simpa [keysOf] using hk)
        have hkeq : keysOf (acc ++ [(k0, v0)]) = keysOf acc ++ [k0] := by simp [keysOf]
        rw [hkeq]
        intro hmem
        rcases List.mem_append.mp hmem with hmem | hmem
        · exact hknacc hmem
        · exact hkne (by simpa using hmem)

theorem objAssign_nil_eq (fs : Fields) (h : (keysOf fs).Nodup) :
    objAssign [] fs = fs := by
  have := objAssign_fresh_append fs [] h (by simp [keysOf])
  simpa using this

/-! ### The strict merge strategy -/

theorem strictFiltered_eq_filterMap (incoming : Fields) (current : Fields)
    (hc : (keysOf current).Nodup) :
    strictFiltered current incoming =
      current.filterMap (fun p => (getVal incoming p.1).map (fun w => (p.1, w))) := by
  suffices h : ∀ (c : Fields) (acc : Fields), (keysOf c).Nodup →
      (∀ k ∈ keysOf c, k ∉ keysOf acc) →
      c.foldl (fun acc p =>
        match getVal incoming p.1 with
        | some w => setVal acc p.1 w
        | none => acc) acc =
        acc ++ c.filterMap (fun p => (getVal incoming p.1).map (fun w => (p.1, w))) by
    have := h current [] hc (by simp [keysOf])
    simpa [strictFiltered] using this
  intro c
  induction c with
  | nil => intro acc _ _; simp
  | cons p rest ih =>
      intro acc hnd hfresh
      obtain ⟨k0, v0⟩ := p
      have hk0 : keysOf ((k0, v0) :: rest) = k0 :: keysOf rest := rfl
      rw [hk0] at hnd
      rw [List.foldl_cons]
      cases hg : getVal incoming k0 with
      | none =>
          simp only [hg]
          rw [ih acc hnd.of_cons (fun k hk => hfresh k (by simp [keysOf]; right; simpa [keysOf] using hk))]
          simp [List.filterMap_cons, hg]
      | some w =>
          simp only [hg]
          have hnotacc : k0 ∉ keysOf acc := hfresh k0 (by simp [keysOf])
          rw [setVal_append_of_not_mem acc k0 w hnotacc]
          rw [ih (acc ++ [(k0, w)]) hnd.of_cons]
          · simp [List.filterMap_cons, hg]
          · intro k hk
            have hkne : k ≠ k0 := by
              intro he
              subst he
              exact (List.nodup_cons.mp hnd).1 hk
            have hknacc : k ∉ keysOf acc := hfresh k (by simp [keysOf]; right; simpa [keysOf] using hk)
            have hkeq : keysOf (acc ++ [(k0, w)]) = keysOf acc ++ [k0] := by simp [keysOf]
            rw [hkeq]
            intro hmem
            rcases List.mem_append.mp hmem with hmem | hmem
            · exact hknacc hmem
            · exact hkne (by simpa using hmem)

theorem keysOf_strictFiltered_sublist (current incoming : Fields)
    (hc : (keysOf current).Nodup) :
    List.Sublist (keysOf (strictFiltered current incoming)) (keysOf current) := by
  rw [strictFiltered_eq_filterMap incoming current hc]
  clear hc
  induction current with
  | nil => simp [keysOf]
  | cons p rest ih =>
      simp only [keysOf, List.map_cons] at ih ⊢
      cases hg : getVal incoming p.1 with
      | none =>
          simp only [List.filterMap_cons, hg, Option.map_none']
          exact ih.cons p.1
      | some w =>
          simp only [List.filterMap_cons, hg, Option.map_some', List.map_cons]
          exact ih.cons₂ p.1

theorem getVal_strictFiltered (current incoming : Fields)
    (hc : (keysOf current).Nodup) (k : String) :
    getVal (strictFiltered current incoming) k =
      match getVal current k with
      | some _ => getVal incoming k
      | none => none := by
  rw [strictFiltered_eq_filterMap incoming current hc]
  induction current with
  | nil => simp [getVal]
  | cons p rest ih =>
      obtain ⟨k0, v0⟩ := p
      have hk0 : keysOf ((k0, v0) :: rest) = k0 :: keysOf rest := rfl
      rw [hk0] at hc
      cases hg : getVal incoming k0 with
      | some w =>
          simp only [List.filterMap_cons, hg, Option.map_some']
          by_cases hk : k0 = k
          · subst hk
            simp [getVal, hg]
          · simp only [getVal, if_neg hk]
            exact ih hc.of_cons
      | none =>
          simp only [List.filterMap_cons, hg, Option.map_none']
          by_cases hk : k0 = k
          · subst hk
            have hrest : getVal rest k0 = none :=
              (getVal_none_iff_not_mem rest k0).mpr (List.nodup_cons.mp hc).1
            have hsub := keysOf_strictFiltered_sublist rest incoming hc.of_cons
            rw [strictFiltered_eq_filterMap incoming rest hc.of_cons] at hsub
            have hnotin : k0 ∉ keysOf (rest.filterMap
                (fun p => (getVal incoming p.1).map (fun w => (p.1, w)))) := by
              intro hmem
              exact (List.nodup_cons.mp hc).1 (hsub.subset hmem)
            have hgf := (getVal_none_iff_not_mem _ k0).mpr hnotin
            simp [getVal, hg, hgf]
          · simp only [getVal, if_neg hk]
            exact ih hc.of_cons

/-- C4: for all current and incoming objects, `mergeData(current, incoming,
"replace")` is `incoming` exactly — every key of `incoming` appears with
`incoming`'s value and every key of `current`, including keys absent from
`incoming`, is discarded. -/
theorem mergeData_replace_eq_incoming (current incoming : Fields) :
    mergeData current incoming .replace = incoming := rfl

/-- C2: for all current/incoming with well-formed (duplicate-free) current
keys, strict merge returns an object with exactly `current`'s key list;
each key of `current` is bound to `incoming`'s value when the key exists
in `incoming` and to `current`'s value otherwise, and keys present only in
`incoming` are dropped (the key list is unchanged). -/
theorem mergeData_strict_spec (current incoming : Fields)
    (hc : (keysOf current).Nodup) :
    keysOf (mergeData current incoming .strict) = keysOf current ∧
    ∀ k, getVal (mergeData current incoming .strict) k =
      (getVal current k).map (fun v => (getVal incoming k).getD v) := by
  have hF := keysOf_strictFiltered_sublist current incoming hc
  have hFnd : (keysOf (strictFiltered current incoming)).Nodup := hc.sublist hF
  have hmerge : mergeData current incoming .strict =
      objAssign current (strictFiltered current incoming) := by
    show spreadTwo current (strictFiltered current incoming) = _
    unfold spreadTwo
    rw [objAssign_nil_eq current hc]
  constructor
  · rw [hmerge]
    exact keysOf_objAssign_subset _ current (fun k hk => hF.subset hk)
  · intro k
    rw [hmerge, getVal_objAssign _ current hFnd k,
        getVal_strictFiltered current incoming hc k]
    cases hcv : getVal current k with
    | none => simp
    | some v =>
        cases hiv : getVal incoming k with
        | none => simp [hcv]
        | some w => simp

/-- Witness for C2 at the spec's scenario: `current={name:"",email:""}`,
`incoming={name:"Bob",age:30}` under strict merge gives exactly
`{name:"Bob", email:""}`, and `age` is dropped. -/
theorem mergeData_strict_spec_witness :
    (keysOf [("name", JsonValue.str ""), ("email", JsonValue.str "")]).Nodup ∧
    getVal (mergeData [("name", JsonValue.str ""), ("email", JsonValue.str "")]
        [("name", JsonValue.str "Bob"), ("age", JsonValue.num 30)] .strict) "age" =
      (getVal [("name", JsonValue.str ""), ("email", JsonValue.str "")] "age").map
        (fun v => (getVal [("name", JsonValue.str "Bob"), ("age", JsonValue.num 30)] "age").getD v) ∧
    mergeData [("name", JsonValue.str ""), ("email", JsonValue.str "")]
        [("name", JsonValue.str "Bob"), ("age", JsonValue.num 30)] .strict =
      [("name", JsonValue.str "Bob"), ("email", JsonValue.str "")] :=
  ⟨by decide,
   (mergeData_strict_spec [("name", JsonValue.str ""), ("email", JsonValue.str "")]
      [("name", JsonValue.str "Bob"), ("age", JsonValue.num 30)] (by decide)).2 "age",
   by rfl⟩

/-! ### Flatten: dropped empty objects (C10) and parser bypass (C9) -/

/-- C10: a key whose value is a non-null, non-array, non-date object with
no own enumerable properties (the empty object `{}`, or a regex, which the
recursion condition also admits) produces no key at all in the output of
`flattenObject`: the entry is skipped entirely.  In particular
`flattenObject {a: {}} = {}`, which also equals `flattenObject {}`, so
flattening is not information-preserving for trees containing empty-object
leaves. -/
theorem flattenObject_drops_empty_plain_objects :
    (∀ (k : String) (v : JsonValue) (rest : Fields) (parent : String) (result : Fields),
        (v = JsonValue.obj [] ∨ ∃ p, v = JsonValue.regex p) →
        flattenFields ((k, v) :: rest) parent result = flattenFields rest parent result) ∧
    flattenObject [("a", JsonValue.obj [])] = [] ∧
    flattenObject [("a", JsonValue.obj [])] = flattenObject [] := by
  refine ⟨?_, rfl, rfl⟩
  rintro k v rest parent result (rfl | ⟨p, rfl⟩)
  · rfl
  · rfl

/-- Witness for C10: the empty-object entry is erased by flattening. -/
theorem flattenObject_drops_empty_plain_objects_witness :
    flattenFields [("a", JsonValue.obj [])] "" [] = flattenFields [] "" [] :=
  flattenObject_drops_empty_plain_objects.1 "a" (JsonValue.obj []) [] "" [] (Or.inl rfl)

/-- C9: an already-parsed object input bypasses the Safe Parser stage
entirely: with no transform/validate/onBeforeFill callbacks configured, an
object carrying a reserved key at any depth — exactly the input that
`parseJson` rejects with a PARSE_ERROR — flows through flatten and map and
the pipeline resolves successfully, raising no error at all. -/
theorem objInput_skips_parseJson (fs : Fields) (opts : Options) (k : String)
    (ht : opts.transform = none) (hv : opts.validate = none)
    (hb : opts.onBeforeFill = none)
    (hk : findDanger (JsonValue.obj fs) = some k) :
    parseJson (some (JsonValue.obj fs)) =
      Except.error
        { message := "Potentially dangerous key \x22" ++ k ++ "\x22 found in JSON",
          code := .PARSE_ERROR } ∧
    processJsonData (.objInput fs) opts =
      Except.ok
        (applyMapping (if opts.flatten ≠ some false then flattenObject fs else fs)
          opts.fieldMap, false) := by
  constructor
  · simp [parseJson, typeofIsObject, isNullV, isArrayV, hk]
  · simp [processJsonData, ht, hv, hb]

/-- Witness for C9: an object input whose top-level key is `__proto__`
would be rejected by the parser but sails through the pipeline. -/
theorem objInput_skips_parseJson_witness :
    parseJson (some (JsonValue.obj [("__proto__", JsonValue.obj [])])) =
      Except.error
        { message := "Potentially dangerous key \x22__proto__\x22 found in JSON",
          code := .PARSE_ERROR } ∧
    processJsonData (.objInput [("__proto__", JsonValue.obj [])]) {} =
      Except.ok
        (applyMapping
          (if ({} : Options).flatten ≠ some false
           then flattenObject [("__proto__", JsonValue.obj [])]
           else [("__proto__", JsonValue.obj [])])
          ({} : Options).fieldMap, false) :=
  objInput_skips_parseJson [("__proto__", JsonValue.obj [])] {} "__proto__" rfl rfl rfl rfl

/-! ### Field mapping (C7) -/

theorem applyMapping_fold_invariant (fm : List (String × String)) (k : String)
    (v : JsonValue) :
    ∀ (data : Fields) (acc : Fields),
      (∀ p ∈ data, (lookupStr fm p.1).getD p.1 = k → p = (k, v)) →
      lookupStr fm k = none →
      ((k, v) ∈ data ∨ getVal acc k = some v) →
      getVal
        (data.foldl (fun mapped p => setVal mapped ((lookupStr fm p.1).getD p.1) p.2) acc)
        k = some v := by
  intro data
  induction data with
  | nil =>
      intro acc _ _ hin
      rcases hin with hin | hin
      · cases hin
      · exact hin
  | cons p rest ih =>
      intro acc hcoll hlk hin
      rw [List.foldl_cons]
      by_cases hmk : (lookupStr fm p.1).getD p.1 = k
      · have hp : p = (k, v) := hcoll p (List.mem_cons_self p rest) hmk
        subst hp
        apply ih _ (fun q hq => hcoll q (List.mem_cons_of_mem _ hq)) hlk
        right
        rw [hmk, getVal_setVal]
        simp
      · apply ih _ (fun q hq => hcoll q (List.mem_cons_of_mem _ hq)) hlk
        rcases hin with hin | hin
        · rcases List.mem_cons.mp hin with hin | hin
          · exfalso
            subst hin
            exact hmk (by simp [hlk])
          · exact Or.inl hin
        · right
          rw [getVal_setVal, if_neg hmk]
          exact hin

/-- A source key absent from the field map passes through `applyMapping`
under its original name, provided no other entry is mapped onto that same
name (the code's last-write-wins collision policy would otherwise
overwrite the value). -/
theorem applyMapping_passthrough (data : Fields) (fm : List (String × String))
    (k : String) (v : JsonValue)
    (hmem : (k, v) ∈ data) (hlk : lookupStr fm k = none)
    (hcoll : ∀ p ∈ data, (lookupStr fm p.1).getD p.1 = k → p = (k, v)) :
    getVal (applyMapping data (some fm)) k = some v := by
  unfold applyMapping
  exact applyMapping_fold_invariant fm k v data [] hcoll hlk (Or.inl hmem)

/-- C7: the pipeline on the spec's nested input with the three-entry
fieldMap and default flatten yields exactly
`{firstName: "Jane", lastName: "Doe", email: "j@x.com"}`; and in general a
source key absent from the map passes through the (post-flatten) mapping
stage under its original dotted name. -/
theorem processJsonData_fieldMap_scenario :
    processJsonData
        (.text (some (JsonValue.obj
          [("user", JsonValue.obj
            [("first_name", JsonValue.str "Jane"),
             ("last_name", JsonValue.str "Doe"),
             ("contact", JsonValue.obj [("email", JsonValue.str "j@x.com")])])])))
        { fieldMap := some
            [("user.first_name", "firstName"),
             ("user.last_name", "lastName"),
             ("user.contact.email", "email")] } =
      Except.ok
        ([("firstName", JsonValue.str "Jane"),
          ("lastName", JsonValue.str "Doe"),
          ("email", JsonValue.str "j@x.com")], false) ∧
    (∀ (data : Fields) (fm : List (String × String)) (k : String) (v : JsonValue),
        (k, v) ∈ data → lookupStr fm k = none →
        (∀ p ∈ data, (lookupStr fm p.1).getD p.1 = k → p = (k, v)) →
        getVal (applyMapping data (some fm)) k = some v) :=
  ⟨by rfl, fun data fm k v hmem hlk hcoll => applyMapping_passthrough data fm k v hmem hlk hcoll⟩

/-- Witness for C7: the pass-through half applied to the flattened
scenario input with a map that misses the key `user.last_name`. -/
theorem processJsonData_fieldMap_scenario_witness :
    getVal
      (applyMapping
        [("user.first_name", JsonValue.str "Jane"), ("user.last_name", JsonValue.str "Doe")]
        (some [("user.first_name", "firstName")]))
      "user.last_name" = some (JsonValue.str "Doe") :=
  processJsonData_fieldMap_scenario.2
    [("user.first_name", JsonValue.str "Jane"), ("user.last_name", JsonValue.str "Doe")]
    [("user.first_name", "firstName")]
    "user.last_name" (JsonValue.str "Doe")
    (by simp)
    (by rfl)
    (by
      intro p hp hk
      rcases List.mem_cons.mp hp with rfl | hp
      · exact absurd hk (by decide)
      · rcases List.mem_cons.mp hp with rfl | hp
        · rfl
        · exact absurd hp (List.not_mem_nil p))

/-! ### Deep merge (C3) -/

theorem isPlainObject_iff (v : JsonValue) :
    isPlainObject v = true ↔ ∃ fs, v = JsonValue.obj fs := by
  cases v <;> simp [isPlainObject, typeofIsObject, isNullV, isArrayV, isDateV, isRegexV]

theorem deepMergeVal_not_both_plain (tv : Option JsonValue) (sv : JsonValue)
    (h : ¬ ∃ cv, tv = some cv ∧ (isPlainObject cv && isPlainObject sv) = true) :
    deepMergeVal tv sv = sv := by
  cases tv with
  | none => cases sv <;> rfl
  | some cv =>
      cases cv with
      | obj tf =>
          cases sv with
          | obj sf =>
              exfalso
              apply h
              refine ⟨JsonValue.obj tf, rfl, ?_⟩
              simp [isPlainObject, typeofIsObject, isNullV, isArrayV, isDateV, isRegexV]
          | str s => rfl
          | num n => rfl
          | bool b => rfl
          | null => rfl
          | date t => rfl
          | regex p => rfl
          | arr xs => rfl
      | str s => cases sv <;> rfl
      | num n => cases sv <;> rfl
      | bool b => cases sv <;> rfl
      | null => cases sv <;> rfl
      | date t => cases sv <;> rfl
      | regex p => cases sv <;> rfl
      | arr xs => cases sv <;> rfl

theorem getVal_deepMergeFields (target : Fields) (src : Fields) :
    ∀ result, (keysOf src).Nodup → ∀ k,
      getVal (deepMergeFields target src result) k =
        match getVal src k with
        | some sv => some (deepMergeVal (getVal target k) sv)
        | none => getVal result k := by
  induction src with
  | nil => intro result _ k; simp [deepMergeFields, getVal]
  | cons p rest ih =>
      intro result hnd k
      obtain ⟨k0, sv⟩ := p
      have hk0 : keysOf ((k0, sv) :: rest) = k0 :: keysOf rest := rfl
      rw [hk0] at hnd
      show getVal (deepMergeFields target rest
        (setVal result k0 (deepMergeVal (getVal target k0) sv))) k = _
      rw [ih _ hnd.of_cons k]
      by_cases hk : k0 = k
      · subst hk
        have hrest : getVal rest k0 = none :=
          (getVal_none_iff_not_mem rest k0).mpr (List.nodup_cons.mp hnd).1
        simp [hrest, getVal, getVal_setVal]
      · simp [getVal, hk, getVal_setVal]

/-- C3: under deep merge, for every key `k`, the two sides are recursively
deep-merged exactly when both values are plain objects in the sense of
`isPlainObject` (object type, non-null, not an array, not date-like, not
regex-like); in every other case — either side an array, a primitive, a
date, a regex, or absent — `incoming`'s value overwrites; and a key
present on only one side keeps that side's value.  The conclusion's
recursive occurrence of `mergeData … "deep"` extends the statement to
every depth. -/
theorem mergeData_deep_spec (current incoming : Fields)
    (hc : (keysOf current).Nodup) (hi : (keysOf incoming).Nodup) :
    ∀ k,
      (∀ tf sf, getVal current k = some (JsonValue.obj tf) →
          getVal incoming k = some (JsonValue.obj sf) →
          getVal (mergeData current incoming .deep) k =
            some (JsonValue.obj (mergeData tf sf .deep))) ∧
      (∀ sv, getVal incoming k = some sv →
          (¬ ∃ cv, getVal current k = some cv ∧
              (isPlainObject cv && isPlainObject sv) = true) →
          getVal (mergeData current incoming .deep) k = some sv) ∧
      (getVal incoming k = none →
          getVal (mergeData current incoming .deep) k = getVal current k) := by
  intro k
  have hbase : getVal (mergeData current incoming .deep) k =
      match getVal incoming k with
      | some sv => some (deepMergeVal (getVal current k) sv)
      | none => getVal current k := by
    show getVal (deepMerge current incoming) k = _
    unfold deepMerge
    rw [objAssign_nil_eq current hc]
    exact getVal_deepMergeFields current incoming current hi k
  refine ⟨?_, ?_, ?_⟩
  · intro tf sf hcv hiv
    rw [hbase, hiv, hcv]
    rfl
  · intro sv hiv hnot
    rw [hbase, hiv]
    show some (deepMergeVal (getVal current k) sv) = some sv
    rw [deepMergeVal_not_both_plain (getVal current k) sv hnot]
  · intro hiv
    rw [hbase, hiv]

/-- Witness for C3: a shared nested-object key is merged recursively while
a shared array-valued key is overwritten by `incoming`'s array. -/
theorem mergeData_deep_spec_witness :
    getVal (mergeData
        [("a", JsonValue.obj [("x", JsonValue.num 1)]), ("l", JsonValue.arr [JsonValue.num 1])]
        [("a", JsonValue.obj [("y", JsonValue.num 2)]), ("l", JsonValue.arr [JsonValue.num 9])]
        .deep) "a" =
      some (JsonValue.obj (mergeData [("x", JsonValue.num 1)] [("y", JsonValue.num 2)] .deep)) ∧
    getVal (mergeData
        [("a", JsonValue.obj [("x", JsonValue.num 1)]), ("l", JsonValue.arr [JsonValue.num 1])]
        [("a", JsonValue.obj [("y", JsonValue.num 2)]), ("l", JsonValue.arr [JsonValue.num 9])]
        .deep) "l" =
      some (JsonValue.arr [JsonValue.num 9]) :=
  ⟨((mergeData_deep_spec
      [("a", JsonValue.obj [("x", JsonValue.num 1)]), ("l", JsonValue.arr [JsonValue.num 1])]
      [("a", JsonValue.obj [("y", JsonValue.num 2)]), ("l", JsonValue.arr [JsonValue.num 9])]
      (by decide) (by decide)) "a").1
      [("x", JsonValue.num 1)] [("y", JsonValue.num 2)] rfl rfl,
   (((mergeData_deep_spec
      [("a", JsonValue.obj [("x", JsonValue.num 1)]), ("l", JsonValue.arr [JsonValue.num 1])]
      [("a", JsonValue.obj [("y", JsonValue.num 2)]), ("l", JsonValue.arr [JsonValue.num 9])]
      (by decide) (by decide)) "l").2).1
      (JsonValue.arr [JsonValue.num 9]) rfl
      (by
        rintro ⟨cv, hcv, hpl⟩
        have hcv' : cv = JsonValue.arr [JsonValue.num 1] := by
          have : getVal
            [("a", JsonValue.obj [("x", JsonValue.num 1)]), ("l", JsonValue.arr [JsonValue.num 1])]
            "l" = some (JsonValue.arr [JsonValue.num 1]) := rfl
          rw [this] at hcv
          exact (Option.some_inj.mp hcv).symm
        subst hcv'
        simp [isPlainObject, typeofIsObject, isNullV, isArrayV, isDateV, isRegexV] at hpl)⟩

/-! ### Safe parser (C1) -/

mutual
theorem findDanger_none_iff : ∀ (v : JsonValue), findDanger v = none ↔
    ∀ w ∈ reachableValues v, ∀ gs, w = JsonValue.obj gs → ∀ p ∈ gs, p.1 ∉ DANGEROUS_KEYS
  | .obj fs => by
      rw [show findDanger (.obj fs) = findDangerFields fs from rfl]
      rw [findDangerFields_none_iff fs]
      rw [show reachableValues (.obj fs) = JsonValue.obj fs :: reachableValuesFields fs from rfl]
      constructor
      · rintro ⟨h1, h2⟩ w hw gs hgs p hp
        rcases List.mem_cons.mp hw with rfl | hw
        · injection hgs with h
          subst h
          exact h1 p hp
        · exact h2 w hw gs hgs p hp
      · intro h
        refine ⟨?_, ?_⟩
        · intro p hp
          exact h (JsonValue.obj fs) (List.mem_cons_self _ _) fs rfl p hp
        · intro w hw gs hgs p hp
          exact h w (List.mem_cons_of_mem _ hw) gs hgs p hp
  | .arr xs => by
      rw [show findDanger (.arr xs) = findDangerList xs from rfl]
      rw [findDangerList_none_iff xs]
      rw [show reachableValues (.arr xs) = JsonValue.arr xs :: reachableValuesList xs from rfl]
      constructor
      · intro h w hw gs hgs p hp
        rcases List.mem_cons.mp hw with rfl | hw
        · cases hgs
        · exact h w hw gs hgs p hp
      · intro h w hw gs hgs p hp
        exact h w (List.mem_cons_of_mem _ hw) gs hgs p hp
  | .str s => by
      constructor
      · intro _ w hw gs hgs p hp
        rw [show reachableValues (.str s) = [JsonValue.str s] from rfl] at hw
        rcases List.mem_cons.mp hw with rfl | hw
        · cases hgs
        · exact absurd hw (List.not_mem_nil w)
      · intro _
        rfl
  | .num n => by
      constructor
      · intro _ w hw gs hgs p hp
        rw [show reachableValues (.num n) = [JsonValue.num n] from rfl] at hw
        rcases List.mem_cons.mp hw with rfl | hw
        · cases hgs
        · exact absurd hw (List.not_mem_nil w)
      · intro _
        rfl
  | .bool b => by
      constructor
      · intro _ w hw gs hgs p hp
        rw [show reachableValues (.bool b) = [JsonValue.bool b] from rfl] at hw
        rcases List.mem_cons.mp hw with rfl | hw
        · cases hgs
        · exact absurd hw (List.not_mem_nil w)
      · intro _
        rfl
  | .null => by
      constructor
      · intro _ w hw gs hgs p hp
        rw [show reachableValues .null = [JsonValue.null] from rfl] at hw
        rcases List.mem_cons.mp hw with rfl | hw
        · cases hgs
        · exact absurd hw (List.not_mem_nil w)
      · intro _
        rfl
  | .date t => by
      constructor
      · intro _ w hw gs hgs p hp
        rw [show reachableValues (.date t) = [JsonValue.date t] from rfl] at hw
        rcases List.mem_cons.mp hw with rfl | hw
        · cases hgs
        · exact absurd hw (List.not_mem_nil w)
      · intro _
        rfl
  | .regex q => by
      constructor
      · intro _ w hw gs hgs p hp
        rw [show reachableValues (.regex q) = [JsonValue.regex q] from rfl] at hw
        rcases List.mem_cons.mp hw with rfl | hw
        · cases hgs
        · exact absurd hw (List.not_mem_nil w)
      · intro _
        rfl

theorem findDangerFields_none_iff : ∀ (fs : Fields), findDangerFields fs = none ↔
    ((∀ p ∈ fs, p.1 ∉ DANGEROUS_KEYS) ∧
     ∀ w ∈ reachableValuesFields fs, ∀ gs, w = JsonValue.obj gs →
        ∀ p ∈ gs, p.1 ∉ DANGEROUS_KEYS)
  | [] => by
      constructor
      · intro _
        constructor
        · intro p hp
          exact absurd hp (List.not_mem_nil p)
        · intro w hw
          rw [show reachableValuesFields [] = [] from rfl] at hw
          exact absurd hw (List.not_mem_nil w)
      · intro _
        rfl
  | (k, v) :: rest => by
      have hstep : findDangerFields ((k, v) :: rest) = none ↔
          (¬ (DANGEROUS_KEYS.contains k = true) ∧ findDanger v = none ∧
            findDangerFields rest = none) := by
        rw [show findDangerFields ((k, v) :: rest) =
            (if DANGEROUS_KEYS.contains k then some k
             else
               match findDanger v with
               | some d => some d
               | none => findDangerFields rest) from rfl]
        by_cases hk : DANGEROUS_KEYS.contains k = true
        · rw [if_pos hk]
          simp at hk
          simp [hk]
        · rw [if_neg hk]
          simp at hk
          cases hv : findDanger v with
          | some d => simp [hk, hv]
          | none => simp [hk, hv]
      rw [hstep, findDanger_none_iff v, findDangerFields_none_iff rest]
      rw [show reachableValuesFields ((k, v) :: rest) =
          reachableValues v ++ reachableValuesFields rest from rfl]
      constructor
      · rintro ⟨hk, hv, hrest1, hrest2⟩
        refine ⟨?_, ?_⟩
        · intro p hp
          rcases List.mem_cons.mp hp with rfl | hp
          · intro hmem
            exact hk (List.elem_iff.mpr hmem)
          · exact hrest1 p hp
        · intro w hw gs hgs p hp
          rcases List.mem_append.mp hw with hw | hw
          · exact hv w hw gs hgs p hp
          · exact hrest2 w hw gs hgs p hp
      · rintro ⟨h1, h2⟩
        refine ⟨?_, ?_, ?_, ?_⟩
        · intro hk
          exact h1 (k, v) (List.mem_cons_self _ _) (List.elem_iff.mp hk)
        · intro w hw gs hgs p hp
          exact h2 w (List.mem_append.mpr (Or.inl hw)) gs hgs p hp
        · intro p hp
          exact h1 p (List.mem_cons_of_mem _ hp)
        · intro w hw gs hgs p hp
          exact h2 w (List.mem_append.mpr (Or.inr hw)) gs hgs p hp

theorem findDangerList_none_iff : ∀ (xs : List JsonValue), findDangerList xs = none ↔
    ∀ w ∈ reachableValuesList xs, ∀ gs, w = JsonValue.obj gs →
      ∀ p ∈ gs, p.1 ∉ DANGEROUS_KEYS
  | [] => by
      constructor
      · intro _ w hw
        rw [show reachableValuesList [] = [] from rfl] at hw
        exact absurd hw (List.not_mem_nil w)
      · intro _
        rfl
  | v :: rest => by
      have hstep : findDangerList (v :: rest) = none ↔
          (findDanger v = none ∧ findDangerList rest = none) := by
        rw [show findDangerList (v :: rest) =
            (match findDanger v with
             | some d => some d
             | none => findDangerList rest) from rfl]
        cases hv : findDanger v with
        | some d => simp [hv]
        | none => simp [hv]
      rw [hstep, findDanger_none_iff v, findDangerList_none_iff rest]
      rw [show reachableValuesList (v :: rest) =
          reachableValues v ++ reachableValuesList rest from rfl]
      constructor
      · rintro ⟨h1, h2⟩ w hw gs hgs p hp
        rcases List.mem_append.mp hw with hw | hw
        · exact h1 w hw gs hgs p hp
        · exact h2 w hw gs hgs p hp
      · intro h
        refine ⟨?_, ?_⟩
        · intro w hw gs hgs p hp
          exact h w (List.mem_append.mpr (Or.inl hw)) gs hgs p hp
        · intro w hw gs hgs p hp
          exact h w (List.mem_append.mpr (Or.inr hw)) gs hgs p hp
end

theorem specHasReservedKey_iff (v : JsonValue) :
    specHasReservedKey v ↔ ¬ (findDanger v = none) := by
  rw [findDanger_none_iff v]
  unfold specHasReservedKey
  push_neg
  constructor
  · rintro ⟨w, hw, gs, hgs, p, hp, hd⟩
    exact ⟨w, hw, gs, hgs, p, hp, hd⟩
  · rintro ⟨w, hw, gs, hgs, p, hp, hd⟩
    exact ⟨w, hw, gs, hgs, p, hp, hd⟩

/-- C1: `parseJson` fails — and always with a typed PARSE_ERROR — exactly
when the text is not syntactically valid JSON (`none` parse outcome), or
the top-level parsed value is not a non-null non-array object (arrays,
strings, numbers, booleans and null all rejected), or the parsed structure
contains a reserved key (`__proto__`, `constructor`, `prototype`) at any
nesting depth, including inside object values nested within arrays;
otherwise it returns the parsed object. -/
theorem parseJson_spec (r : Option JsonValue)
    (hr : ∀ v, r = some v → jsonParseable v = true) :
    ((∃ e, parseJson r = Except.error e ∧ e.code = JsonErrorCode.PARSE_ERROR) ↔
      (r = none ∨ ∃ v, r = some v ∧
        ((∀ gs, v ≠ JsonValue.obj gs) ∨ specHasReservedKey v))) ∧
    (∀ fs, r = some (JsonValue.obj fs) → ¬ specHasReservedKey (JsonValue.obj fs) →
        parseJson r = Except.ok fs) := by
  cases r with
  | none =>
      refine ⟨⟨fun _ => Or.inl rfl,
        fun _ => ⟨{ message := "Invalid JSON file", code := .PARSE_ERROR }, rfl, rfl⟩⟩, ?_⟩
      intro fs h
      cases h
  | some v =>
      cases v with
      | obj fs =>
          cases hd : findDanger (JsonValue.obj fs) with
          | some key =>
              have herr : parseJson (some (JsonValue.obj fs)) =
                  Except.error
                    { message := "Potentially dangerous key \x22" ++ key ++ "\x22 found in JSON",
                      code := .PARSE_ERROR } := by
                simp [parseJson, typeofIsObject, isNullV, isArrayV, hd]
              have hspec : specHasReservedKey (JsonValue.obj fs) := by
                rw [specHasReservedKey_iff]
                simp [hd]
              refine ⟨⟨fun _ => Or.inr ⟨JsonValue.obj fs, rfl, Or.inr hspec⟩,
                fun _ => ⟨_, herr, rfl⟩⟩, ?_⟩
              intro fs' h hns
              exfalso
              apply hns
              have : fs' = fs := by
                injection h with h'
                injection h' with h''
                exact h''.symm
              rw [this]
              exact hspec
          | none =>
              have hok : parseJson (some (JsonValue.obj fs)) = Except.ok fs := by
                simp [parseJson, typeofIsObject, isNullV, isArrayV, hd, asFields]
              refine ⟨⟨?_, ?_⟩, ?_⟩
              · rintro ⟨e, he, _⟩
                rw [hok] at he
                cases he
              · rintro (h | ⟨v', hv', h⟩)
                · cases h
                · exfalso
                  have hv'' : v' = JsonValue.obj fs := by
                    injection hv' with h'
                    exact h'.symm
                  subst hv''
                  rcases h with h | h
                  · exact h fs rfl
                  · rw [specHasReservedKey_iff] at h
                    exact h hd
              · intro fs' h _
                have : fs' = fs := by
                  injection h with h'
                  injection h' with h''
                  exact h''.symm
                rw [this]
                exact hok
      | str s =>
          have herr : parseJson (some (JsonValue.str s)) =
              Except.error
                { message := "JSON must be a top-level object (not an array or primitive)",
                  code := .PARSE_ERROR } := by
            simp [parseJson, typeofIsObject, isNullV, isArrayV]
          refine ⟨⟨fun _ => Or.inr ⟨JsonValue.str s, rfl, Or.inl fun gs h => by cases h⟩,
            fun _ => ⟨_, herr, rfl⟩⟩, ?_⟩
          intro fs h
          exfalso
          injection h with h'
          cases h'
      | num n =>
          have herr : parseJson (some (JsonValue.num n)) =
              Except.error
                { message := "JSON must be a top-level object (not an array or primitive)",
                  code := .PARSE_ERROR } := by
            simp [parseJson, typeofIsObject, isNullV, isArrayV]
          refine ⟨⟨fun _ => Or.inr ⟨JsonValue.num n, rfl, Or.inl fun gs h => by cases h⟩,
            fun _ => ⟨_, herr, rfl⟩⟩, ?_⟩
          intro fs h
          exfalso
          injection h with h'
          cases h'
      | bool b =>
          have herr : parseJson (some (JsonValue.bool b)) =
              Except.error
                { message := "JSON must be a top-level object (not an array or primitive)",
                  code := .PARSE_ERROR } := by
            simp [parseJson, typeofIsObject, isNullV, isArrayV]
          refine ⟨⟨fun _ => Or.inr ⟨JsonValue.bool b, rfl, Or.inl fun gs h => by cases h⟩,
            fun _ => ⟨_, herr, rfl⟩⟩, ?_⟩
          intro fs h
          exfalso
          injection h with h'
          cases h'
      | null =>
          have herr : parseJson (some JsonValue.null) =
              Except.error
                { message := "JSON must be a top-level object (not an array or primitive)",
                  code := .PARSE_ERROR } := by
            simp [parseJson, typeofIsObject, isNullV, isArrayV]
          refine ⟨⟨fun _ => Or.inr ⟨JsonValue.null, rfl, Or.inl fun gs h => by cases h⟩,
            fun _ => ⟨_, herr, rfl⟩⟩, ?_⟩
          intro fs h
          exfalso
          injection h with h'
          cases h'
      | arr xs =>
          have herr : parseJson (some (JsonValue.arr xs)) =
              Except.error
                { message := "JSON must be a top-level object (not an array or primitive)",
                  code := .PARSE_ERROR } := by
            simp [parseJson, typeofIsObject, isNullV, isArrayV]
          refine ⟨⟨fun _ => Or.inr ⟨JsonValue.arr xs, rfl, Or.inl fun gs h => by cases h⟩,
            fun _ => ⟨_, herr, rfl⟩⟩, ?_⟩
          intro fs h
          exfalso
          injection h with h'
          cases h'
      | date t =>
          exact absurd (hr (JsonValue.date t) rfl) (by simp [jsonParseable])
      | regex q =>
          exact absurd (hr (JsonValue.regex q) rfl) (by simp [jsonParseable])

/-- Witness for C1: a dangerous key nested inside an object value inside
an array is caught (PARSE_ERROR), while the clean round-trip succeeds. -/
theorem parseJson_spec_witness :
    ((∃ e, parseJson (some (JsonValue.obj
          [("a", JsonValue.arr [JsonValue.obj [("__proto__", JsonValue.null)]])])) =
        Except.error e ∧ e.code = JsonErrorCode.PARSE_ERROR)) ∧
    parseJson (some (JsonValue.obj [("a", JsonValue.num 1)])) =
      Except.ok [("a", JsonValue.num 1)] :=
  ⟨(parseJson_spec
      (some (JsonValue.obj
        [("a", JsonValue.arr [JsonValue.obj [("__proto__", JsonValue.null)]])]))
      (fun v h => by cases h; rfl)).1.mpr
      (Or.inr ⟨_, rfl, Or.inr (by
        rw [specHasReservedKey_iff]
        intro h
        cases h)⟩),
   (parseJson_spec (some (JsonValue.obj [("a", JsonValue.num 1)]))
      (fun v h => by cases h; rfl)).2
     [("a", JsonValue.num 1)] rfl
     (fun hs => by
       rw [specHasReservedKey_iff] at hs
       exact hs rfl)⟩

/-! ### Pipeline orchestration and the plain-state binding (C5) -/

theorem processJsonData_eq_gate (input : JsonInput) (opts : Options) :
    processJsonData input opts =
      match pipelineValue input opts with
      | .error e => .error e
      | .ok d =>
          match (match opts.onBeforeFill with
                 | some g => g d
                 | none => Except.ok true) with
          | .error e => .error e
          | .ok shouldProceed =>
              if shouldProceed = false then Except.ok (d, true)
              else Except.ok (d, false) := by
  simp only [processJsonData, pipelineValue]
  cases hin : (match input with
    | JsonInput.text r => (parseJson r).mapError Thrown.typed
    | JsonInput.objInput fs => Except.ok fs) with
  | error e => simp [hin]
  | ok parsed =>
      simp only [hin]
      cases htr : (match opts.transform with
        | some f => f (applyMapping
            (if opts.flatten ≠ some false then flattenObject parsed else parsed)
            opts.fieldMap)
        | none => Except.ok (applyMapping
            (if opts.flatten ≠ some false then flattenObject parsed else parsed)
            opts.fieldMap)) with
      | error e => simp [htr]
      | ok transformed =>
          simp only [htr]
          cases hva : (match opts.validate with
            | some f => f transformed
            | none => Except.ok true) with
          | error e => simp [hva]
          | ok isValid =>
              cases isValid with
              | false => simp [hva]
              | true => simp [hva]

/-- C5: behaviour of the plain-state binding's `processJson`.  On any
pipeline failure the configured error callback receives the normalised
typed error, nothing is applied (`state = prev`) and the call resolves
`false`.  On a non-cancelled success the merge result is applied and then
`onAfterFill` and `onSuccess` fire, in that order, and the call resolves
`true`.  When `onBeforeFill` returns exactly `false` on the value produced
by the preceding stages, no callback fires at all, no error is raised, the
state container is untouched and the call resolves `false`. -/
theorem processJson_spec (prev : Fields) (opts : Options) (input : JsonInput) :
    (∀ e, processJsonData input opts = Except.error e →
        processJson prev opts input =
          { result := false, state := prev,
            events := [HookEvent.errorCb (normalizeError e)] }) ∧
    (∀ d, processJsonData input opts = Except.ok (d, false) →
        processJson prev opts input =
          { result := true,
            state := mergeData prev d (opts.mergeStrategy.getD .merge),
            events := [HookEvent.applied (mergeData prev d (opts.mergeStrategy.getD .merge)),
                       HookEvent.afterFill d, HookEvent.success d] }) ∧
    (∀ d g, opts.onBeforeFill = some g → pipelineValue input opts = Except.ok d →
        g d = Except.ok false →
        processJson prev opts input =
          { result := false, state := prev, events := [] }) := by
  refine ⟨?_, ?_, ?_⟩
  · intro e he
    unfold processJson
    rw [he]
  · intro d hd
    unfold processJson
    rw [hd]
  · intro d g hg hp hgd
    have hcancel : processJsonData input opts = Except.ok (d, true) := by
      rw [processJsonData_eq_gate]
      simp [hp, hg, hgd]
    unfold processJson
    rw [hcancel]

/-- Witness for C5: a cancelling `onBeforeFill` leaves the state untouched
with no events and resolves `false`; with no gate configured the same
input is applied and the post-fill/success sites fire in order. -/
theorem processJson_spec_witness :
    processJson [("name", JsonValue.str "")]
        { onBeforeFill := some (fun _ => Except.ok false) }
        (.objInput [("name", JsonValue.str "Bob")]) =
      { result := false, state := [("name", JsonValue.str "")], events := [] } ∧
    processJson [("name", JsonValue.str "")] {}
        (.objInput [("name", JsonValue.str "Bob")]) =
      { result := true,
        state := mergeData [("name", JsonValue.str "")] [("name", JsonValue.str "Bob")]
          (({} : Options).mergeStrategy.getD .merge),
        events := [HookEvent.applied
            (mergeData [("name", JsonValue.str "")] [("name", JsonValue.str "Bob")]
              (({} : Options).mergeStrategy.getD .merge)),
          HookEvent.afterFill [("name", JsonValue.str "Bob")],
          HookEvent.success [("name", JsonValue.str "Bob")]] } :=
  ⟨(processJson_spec [("name", JsonValue.str "")]
      { onBeforeFill := some (fun _ => Except.ok false) }
      (.objInput [("name", JsonValue.str "Bob")])).2.2
    [("name", JsonValue.str "Bob")] (fun _ => Except.ok false) rfl rfl rfl,
   (processJson_spec [("name", JsonValue.str "")] {}
      (.objInput [("name", JsonValue.str "Bob")])).2.1
    [("name", JsonValue.str "Bob")] rfl⟩

/-! ### Flatten/unflatten round trip (C6): dot-path segmentation -/

theorem splitOnDotL_ne_nil (cs : List Char) : splitOnDotL cs ≠ [] := by
  induction cs with
  | nil => simp [splitOnDotL]
  | cons c rest ih =>
      by_cases hc : c = '.'
      · simp [splitOnDotL, hc]
      · simp only [splitOnDotL, if_neg hc]
        cases h : splitOnDotL rest with
        | nil => simp
        | cons seg segs => simp

theorem splitOnDotL_no_dot (cs : List Char) (h : ∀ c ∈ cs, c ≠ '.') :
    splitOnDotL cs = [cs] := by
  induction cs with
  | nil => rfl
  | cons c rest ih =>
      have hc : ¬ (c = '.') := h c (List.mem_cons_self c rest)
      have hrest := ih (fun c' hc' => h c' (List.mem_cons_of_mem c hc'))
      simp [splitOnDotL, if_neg hc, hrest]

theorem splitOnDotL_append (as bs : List Char) :
    splitOnDotL (as ++ '.' :: bs) = splitOnDotL as ++ splitOnDotL bs := by
  induction as with
  | nil => simp [splitOnDotL]
  | cons c rest ih =>
      by_cases hc : c = '.'
      · simp [splitOnDotL, hc, ih]
      · simp only [List.cons_append, splitOnDotL, if_neg hc]
        simp only [List.append_eq]
        rw [ih]
        cases h : splitOnDotL rest with
        | nil => exact absurd h (splitOnDotL_ne_nil rest)
        | cons seg segs => simp

theorem string_mk_toList (s : String) : String.mk s.toList = s := rfl

theorem string_toList_append (a b : String) :
    (a ++ b).toList = a.toList ++ b.toList := rfl

theorem splitDots_no_dot (s : String) (h : noDotStr s = true) : splitDots s = [s] := by
  unfold splitDots
  have h' : ∀ c ∈ s.toList, c ≠ '.' := by
    intro c hc
    have := List.all_eq_true.mp h c hc
    simpa using this
  rw [splitOnDotL_no_dot s.toList h']
  simp [string_mk_toList]

theorem splitDots_append_dot (a b : String) :
    splitDots (a ++ "." ++ b) = splitDots a ++ splitDots b := by
  unfold splitDots
  have h1 : (a ++ "." ++ b).toList = a.toList ++ '.' :: b.toList := by
    rw [string_toList_append, string_toList_append]
    rw [show (".".toList : List Char) = ['.'] by decide]
    simp
  rw [h1, splitOnDotL_append, List.map_append]

theorem string_append_dot_ne_empty (a b : String) : a ++ "." ++ b ≠ "" := by
  intro h
  have : (a ++ "." ++ b).toList = ("" : String).toList := by rw [h]
  rw [string_toList_append, string_toList_append] at this
  have h2 : ('.' :: b.toList : List Char) = [] → False := by simp
  revert this
  cases a.toList with
  | nil => simp
  | cons c cs => simp

theorem joinKey_ne_empty (parent k : String) (h : parent ≠ "") :
    joinKey parent k ≠ "" := by
  unfold joinKey
  rw [if_neg h]
  exact string_append_dot_ne_empty parent k

theorem splitDots_joinKey (parent k : String) (hp : parent ≠ "")
    (hk : noDotStr k = true) :
    splitDots (joinKey parent k) = splitDots parent ++ [k] := by
  unfold joinKey
  rw [if_neg hp, splitDots_append_dot, splitDots_no_dot k hk]

theorem splitDots_foldl_joinKey (p : List String) :
    ∀ parent, parent ≠ "" → (∀ s ∈ p, noDotStr s = true) →
      splitDots (List.foldl joinKey parent p) = splitDots parent ++ p := by
  induction p with
  | nil => intro parent _ _; simp
  | cons k rest ih =>
      intro parent hp hs
      rw [List.foldl_cons]
      rw [ih (joinKey parent k) (joinKey_ne_empty parent k hp)
        (fun s hsm => hs s (List.mem_cons_of_mem k hsm))]
      rw [splitDots_joinKey parent k hp (hs k (List.mem_cons_self k rest))]
      simp

theorem splitDots_foldl_joinKey_root (p : List String) (hp : p ≠ [])
    (hs : ∀ s ∈ p, noDotStr s = true)
    (hhead : ∀ h t, p = h :: t → t ≠ [] → h ≠ "") :
    splitDots (List.foldl joinKey "" p) = p := by
  cases p with
  | nil => exact absurd rfl hp
  | cons h t =>
      have hjoin : List.foldl joinKey "" (h :: t) = List.foldl joinKey h t := by
        rw [List.foldl_cons]
        have : joinKey "" h = h := by unfold joinKey; rw [if_pos rfl]
        rw [this]
      rw [hjoin]
      cases t with
      | nil =>
          simp only [List.foldl_nil]
          exact splitDots_no_dot h (hs h (List.mem_cons_self h []))
      | cons t0 ts =>
          have hne : h ≠ "" := hhead h (t0 :: ts) rfl (by simp)
          rw [splitDots_foldl_joinKey (t0 :: ts) h hne
            (fun s hsm => hs s (List.mem_cons_of_mem h hsm))]
          rw [splitDots_no_dot h (hs h (List.mem_cons_self h _))]
          rfl

theorem leavesOne_head (k : String) (v : JsonValue) :
    ∀ pv ∈ leavesOne k v, ∃ q, pv.1 = k :: q := by
  cases v with
  | obj fs =>
      intro pv hpv
      rw [show leavesOne k (.obj fs) =
          (leavesOf fs).map (fun pv => (k :: pv.1, pv.2)) from rfl] at hpv
      rcases List.mem_map.mp hpv with ⟨q, _, hq⟩
      exact ⟨q.1, by rw [← hq]⟩
  | str s =>
      intro pv hpv
      rw [show leavesOne k (.str s) = [([k], JsonValue.str s)] from rfl] at hpv
      rcases List.mem_cons.mp hpv with rfl | hpv
      · exact ⟨[], rfl⟩
      · exact absurd hpv (List.not_mem_nil pv)
  | num n =>
      intro pv hpv
      rw [show leavesOne k (.num n) = [([k], JsonValue.num n)] from rfl] at hpv
      rcases List.mem_cons.mp hpv with rfl | hpv
      · exact ⟨[], rfl⟩
      · exact absurd hpv (List.not_mem_nil pv)
  | bool b =>
      intro pv hpv
      rw [show leavesOne k (.bool b) = [([k], JsonValue.bool b)] from rfl] at hpv
      rcases List.mem_cons.mp hpv with rfl | hpv
      · exact ⟨[], rfl⟩
      · exact absurd hpv (List.not_mem_nil pv)
  | null =>
      intro pv hpv
      rw [show leavesOne k .null = [([k], JsonValue.null)] from rfl] at hpv
      rcases List.mem_cons.mp hpv with rfl | hpv
      · exact ⟨[], rfl⟩
      · exact absurd hpv (List.not_mem_nil pv)
  | date t =>
      intro pv hpv
      rw [show leavesOne k (.date t) = [([k], JsonValue.date t)] from rfl] at hpv
      rcases List.mem_cons.mp hpv with rfl | hpv
      · exact ⟨[], rfl⟩
      · exact absurd hpv (List.not_mem_nil pv)
  | regex q =>
      intro pv hpv
      rw [show leavesOne k (.regex q) = [([k], JsonValue.regex q)] from rfl] at hpv
      rcases List.mem_cons.mp hpv with rfl | hpv
      · exact ⟨[], rfl⟩
      · exact absurd hpv (List.not_mem_nil pv)
  | arr xs =>
      intro pv hpv
      rw [show leavesOne k (.arr xs) = [([k], JsonValue.arr xs)] from rfl] at hpv
      rcases List.mem_cons.mp hpv with rfl | hpv
      · exact ⟨[], rfl⟩
      · exact absurd hpv (List.not_mem_nil pv)

theorem leavesOf_head_mem (fs : Fields) :
    ∀ pv ∈ leavesOf fs, ∃ h t, pv.1 = h :: t ∧ h ∈ keysOf fs := by
  induction fs with
  | nil =>
      intro pv hpv
      rw [show leavesOf [] = [] from rfl] at hpv
      exact absurd hpv (List.not_mem_nil pv)
  | cons p rest ih =>
      obtain ⟨k, v⟩ := p
      intro pv hpv
      rw [show leavesOf ((k, v) :: rest) = leavesOne k v ++ leavesOf rest from rfl] at hpv
      rcases List.mem_append.mp hpv with h | h
      · rcases leavesOne_head k v pv h with ⟨q, hq⟩
        exact ⟨k, q, hq, by simp [keysOf]⟩
      · rcases ih pv h with ⟨h', t', hpt, hmem⟩
        exact ⟨h', t', hpt, by simp [keysOf]; right; simpa [keysOf] using hmem⟩

theorem leavesOne_headcond (k : String) (v : JsonValue)
    (hk : ∀ gs, v = JsonValue.obj gs → k ≠ "") :
    ∀ pv ∈ leavesOne k v, ∀ h t, pv.1 = h :: t → t ≠ [] → h ≠ "" := by
  intro pv hpv h t hpt htn
  cases v with
  | obj fs =>
      rw [show leavesOne k (.obj fs) =
          (leavesOf fs).map (fun pv => (k :: pv.1, pv.2)) from rfl] at hpv
      rcases List.mem_map.mp hpv with ⟨q, _, hq⟩
      have hq1 : pv.1 = k :: q.1 := by rw [← hq]
      rw [hq1] at hpt
      have hh : h = k := by
        injection hpt with h1 _
        exact h1.symm
      subst hh
      exact hk fs rfl
  | str s =>
      rw [show leavesOne k (.str s) = [([k], JsonValue.str s)] from rfl] at hpv
      rcases List.mem_cons.mp hpv with rfl | hpv
      · have ht : t = [] := by
          injection hpt with _ h2
          exact h2.symm
        exact absurd ht htn
      · exact absurd hpv (List.not_mem_nil pv)
  | num n =>
      rw [show leavesOne k (.num n) = [([k], JsonValue.num n)] from rfl] at hpv
      rcases List.mem_cons.mp hpv with rfl | hpv
      · have ht : t = [] := by
          injection hpt with _ h2
          exact h2.symm
        exact absurd ht htn
      · exact absurd hpv (List.not_mem_nil pv)
  | bool b =>
      rw [show leavesOne k (.bool b) = [([k], JsonValue.bool b)] from rfl] at hpv
      rcases List.mem_cons.mp hpv with rfl | hpv
      · have ht : t = [] := by
          injection hpt with _ h2
          exact h2.symm
        exact absurd ht htn
      · exact absurd hpv (List.not_mem_nil pv)
  | null =>
      rw [show leavesOne k .null = [([k], JsonValue.null)] from rfl] at hpv
      rcases List.mem_cons.mp hpv with rfl | hpv
      · have ht : t = [] := by
          injection hpt with _ h2
          exact h2.symm
        exact absurd ht htn
      · exact absurd hpv (List.not_mem_nil pv)
  | date tt =>
      rw [show leavesOne k (.date tt) = [([k], JsonValue.date tt)] from rfl] at hpv
      rcases List.mem_cons.mp hpv with rfl | hpv
      · have ht : t = [] := by
          injection hpt with _ h2
          exact h2.symm
        exact absurd ht htn
      · exact absurd hpv (List.not_mem_nil pv)
  | regex qq =>
      rw [show leavesOne k (.regex qq) = [([k], JsonValue.regex qq)] from rfl] at hpv
      rcases List.mem_cons.mp hpv with rfl | hpv
      · have ht : t = [] := by
          injection hpt with _ h2
          exact h2.symm
        exact absurd ht htn
      · exact absurd hpv (List.not_mem_nil pv)
  | arr xs =>
      rw [show leavesOne k (.arr xs) = [([k], JsonValue.arr xs)] from rfl] at hpv
      rcases List.mem_cons.mp hpv with rfl | hpv
      · have ht : t = [] := by
          injection hpt with _ h2
          exact h2.symm
        exact absurd ht htn
      · exact absurd hpv (List.not_mem_nil pv)

theorem topKeysOk_cons_split (k : String) (v : JsonValue) (rest : Fields)
    (htop : topKeysOk ((k, v) :: rest) = true) :
    (∀ gs, v = JsonValue.obj gs → k ≠ "") ∧ topKeysOk rest = true := by
  cases v with
  | obj fs =>
      have h := htop
      rw [show topKeysOk ((k, JsonValue.obj fs) :: rest) =
          (!(k = "" : Bool) && topKeysOk rest) from rfl] at h
      simp only [Bool.and_eq_true] at h
      refine ⟨?_, h.2⟩
      intro gs _
      simpa using h.1
  | str s =>
      have h := htop
      rw [show topKeysOk ((k, JsonValue.str s) :: rest) =
          (true && topKeysOk rest) from rfl] at h
      simp only [Bool.true_and] at h
      exact ⟨(fun gs hg => nomatch hg), h⟩
  | num n =>
      have h := htop
      rw [show topKeysOk ((k, JsonValue.num n) :: rest) =
          (true && topKeysOk rest) from rfl] at h
      simp only [Bool.true_and] at h
      exact ⟨(fun gs hg => nomatch hg), h⟩
  | bool b =>
      have h := htop
      rw [show topKeysOk ((k, JsonValue.bool b) :: rest) =
          (true && topKeysOk rest) from rfl] at h
      simp only [Bool.true_and] at h
      exact ⟨(fun gs hg => nomatch hg), h⟩
  | null =>
      have h := htop
      rw [show topKeysOk ((k, JsonValue.null) :: rest) =
          (true && topKeysOk rest) from rfl] at h
      simp only [Bool.true_and] at h
      exact ⟨(fun gs hg => nomatch hg), h⟩
  | date t =>
      have h := htop
      rw [show topKeysOk ((k, JsonValue.date t) :: rest) =
          (true && topKeysOk rest) from rfl] at h
      simp only [Bool.true_and] at h
      exact ⟨(fun gs hg => nomatch hg), h⟩
  | regex q =>
      have h := htop
      rw [show topKeysOk ((k, JsonValue.regex q) :: rest) =
          (true && topKeysOk rest) from rfl] at h
      simp only [Bool.true_and] at h
      exact ⟨(fun gs hg => nomatch hg), h⟩
  | arr xs =>
      have h := htop
      rw [show topKeysOk ((k, JsonValue.arr xs) :: rest) =
          (true && topKeysOk rest) from rfl] at h
      simp only [Bool.true_and] at h
      exact ⟨(fun gs hg => nomatch hg), h⟩

theorem leavesOf_headcond (fs : Fields) (htop : topKeysOk fs = true) :
    ∀ pv ∈ leavesOf fs, ∀ h t, pv.1 = h :: t → t ≠ [] → h ≠ "" := by
  induction fs with
  | nil =>
      intro pv hpv
      rw [show leavesOf [] = [] from rfl] at hpv
      exact absurd hpv (List.not_mem_nil pv)
  | cons p rest ih =>
      obtain ⟨k, v⟩ := p
      have hsplit := topKeysOk_cons_split k v rest htop
      intro pv hpv
      rw [show leavesOf ((k, v) :: rest) = leavesOne k v ++ leavesOf rest from rfl] at hpv
      rcases List.mem_append.mp hpv with h | h
      · exact leavesOne_headcond k v hsplit.1 pv h
      · exact ih hsplit.2 pv h

theorem primFields_cons_split (k : String) (v : JsonValue) (rest : Fields)
    (h : primFields ((k, v) :: rest) = true) :
    primTree v = true ∧ primFields rest = true := by
  have h' := h
  rw [show primFields ((k, v) :: rest) = (primTree v && primFields rest) from rfl] at h'
  simpa [Bool.and_eq_true] using h'

theorem nodupDeepFields_cons_split (k : String) (v : JsonValue) (rest : Fields)
    (h : nodupDeepFields ((k, v) :: rest) = true) :
    k ∉ keysOf rest ∧ nodupDeepV v = true ∧ nodupDeepFields rest = true := by
  have h' := h
  rw [show nodupDeepFields ((k, v) :: rest) =
      (!((rest.map Prod.fst).contains k) && nodupDeepV v && nodupDeepFields rest) from rfl] at h'
  simp only [Bool.and_eq_true] at h'
  refine ⟨?_, h'.1.2, h'.2⟩
  intro hmem
  have hb : (rest.map Prod.fst).contains k = true :=
    List.elem_iff.mpr (by simpa [keysOf] using hmem)
  have hcontra := h'.1.1
  rw [hb] at hcontra
  simp at hcontra

theorem noDotFields_cons_split (k : String) (v : JsonValue) (rest : Fields)
    (h : noDotFields ((k, v) :: rest) = true) :
    noDotStr k = true ∧ noDotV v = true ∧ noDotFields rest = true := by
  have h' := h
  rw [show noDotFields ((k, v) :: rest) =
      (noDotStr k && noDotV v && noDotFields rest) from rfl] at h'
  simp only [Bool.and_eq_true] at h'
  exact ⟨h'.1.1, h'.1.2, h'.2⟩

mutual
theorem leavesOf_ne_nil : ∀ (fs : Fields), primFields fs = true → fs ≠ [] →
    leavesOf fs ≠ []
  | [], _, h => absurd rfl h
  | (k, v) :: rest, hp, _ => by
      rw [show leavesOf ((k, v) :: rest) = leavesOne k v ++ leavesOf rest from rfl]
      have hs := primFields_cons_split k v rest hp
      intro happ
      rcases List.append_eq_nil.mp happ with ⟨ha, _⟩
      exact leavesOne_ne_nil k v hs.1 ha

theorem leavesOne_ne_nil : ∀ (k : String) (v : JsonValue), primTree v = true →
    leavesOne k v ≠ []
  | k, .obj fs, hp => by
      rw [show leavesOne k (.obj fs) =
          (leavesOf fs).map (fun pv => (k :: pv.1, pv.2)) from rfl]
      have hfs : fs ≠ [] ∧ primFields fs = true := by
        have h := hp
        rw [show primTree (.obj fs) = (!fs.isEmpty && primFields fs) from rfl] at h
        simp only [Bool.and_eq_true] at h
        refine ⟨?_, h.2⟩
        intro he
        rw [he] at h
        simp at h
      intro hm
      exact leavesOf_ne_nil fs hfs.2 hfs.1 (List.map_eq_nil_iff.mp hm)
  | k, .str s, _ => by simp [leavesOne]
  | k, .num n, _ => by simp [leavesOne]
  | k, .bool b, _ => by simp [leavesOne]
  | k, .null, _ => by simp [leavesOne]
  | k, .date t, _ => by simp [leavesOne]
  | k, .regex q, _ => by simp [leavesOne]
  | k, .arr xs, _ => by simp [leavesOne]
end

mutual
theorem leavesOf_noDot : ∀ (fs : Fields), noDotFields fs = true →
    ∀ pv ∈ leavesOf fs, ∀ s ∈ pv.1, noDotStr s = true
  | [], _, pv, hpv => by
      rw [show leavesOf ([] : Fields) = [] from rfl] at hpv
      exact absurd hpv (List.not_mem_nil pv)
  | (k, v) :: rest, hd, pv, hpv => by
      have hs := noDotFields_cons_split k v rest hd
      rw [show leavesOf ((k, v) :: rest) = leavesOne k v ++ leavesOf rest from rfl] at hpv
      rcases List.mem_append.mp hpv with h | h
      · exact leavesOne_noDot k v hs.1 hs.2.1 pv h
      · exact leavesOf_noDot rest hs.2.2 pv h

theorem leavesOne_noDot : ∀ (k : String) (v : JsonValue), noDotStr k = true →
    noDotV v = true → ∀ pv ∈ leavesOne k v, ∀ s ∈ pv.1, noDotStr s = true
  | k, .obj fs, hk, hv, pv, hpv => by
      rw [show leavesOne k (.obj fs) =
          (leavesOf fs).map (fun pv => (k :: pv.1, pv.2)) from rfl] at hpv
      rcases List.mem_map.mp hpv with ⟨q, hq, hqe⟩
      intro s hsm
      have hpv1 : pv.1 = k :: q.1 := by rw [← hqe]
      rw [hpv1] at hsm
      rcases List.mem_cons.mp hsm with rfl | hsm
      · exact hk
      · have hv' : noDotFields fs = true := by
          rw [show noDotV (.obj fs) = noDotFields fs from rfl] at hv
          exact hv
        exact leavesOf_noDot fs hv' q hq s hsm
  | k, .str s', hk, _, pv, hpv => by
      rw [show leavesOne k (.str s') = [([k], JsonValue.str s')] from rfl] at hpv
      rcases List.mem_cons.mp hpv with rfl | hpv
      · intro s hsm
        rcases List.mem_cons.mp hsm with rfl | hsm
        · exact hk
        · exact absurd hsm (List.not_mem_nil s)
      · exact absurd hpv (List.not_mem_nil pv)
  | k, .num n, hk, _, pv, hpv => by
      rw [show leavesOne k (.num n) = [([k], JsonValue.num n)] from rfl] at hpv
      rcases List.mem_cons.mp hpv with rfl | hpv
      · intro s hsm
        rcases List.mem_cons.mp hsm with rfl | hsm
        · exact hk
        · exact absurd hsm (List.not_mem_nil s)
      · exact absurd hpv (List.not_mem_nil pv)
  | k, .bool b, hk, _, pv, hpv => by
      rw [show leavesOne k (.bool b) = [([k], JsonValue.bool b)] from rfl] at hpv
      rcases List.mem_cons.mp hpv with rfl | hpv
      · intro s hsm
        rcases List.mem_cons.mp hsm with rfl | hsm
        · exact hk
        · exact absurd hsm (List.not_mem_nil s)
      · exact absurd hpv (List.not_mem_nil pv)
  | k, .null, hk, _, pv, hpv => by
      rw [show leavesOne k .null = [([k], JsonValue.null)] from rfl] at hpv
      rcases List.mem_cons.mp hpv with rfl | hpv
      · intro s hsm
        rcases List.mem_cons.mp hsm with rfl | hsm
        · exact hk
        · exact absurd hsm (List.not_mem_nil s)
      · exact absurd hpv (List.not_mem_nil pv)
  | k, .date t, hk, _, pv, hpv => by
      rw [show leavesOne k (.date t) = [([k], JsonValue.date t)] from rfl] at hpv
      rcases List.mem_cons.mp hpv with rfl | hpv
      · intro s hsm
        rcases List.mem_cons.mp hsm with rfl | hsm
        · exact hk
        · exact absurd hsm (List.not_mem_nil s)
      · exact absurd hpv (List.not_mem_nil pv)
  | k, .regex q', hk, _, pv, hpv => by
      rw [show leavesOne k (.regex q') = [([k], JsonValue.regex q')] from rfl] at hpv
      rcases List.mem_cons.mp hpv with rfl | hpv
      · intro s hsm
        rcases List.mem_cons.mp hsm with rfl | hsm
        · exact hk
        · exact absurd hsm (List.not_mem_nil s)
      · exact absurd hpv (List.not_mem_nil pv)
  | k, .arr xs, hk, _, pv, hpv => by
      rw [show leavesOne k (.arr xs) = [([k], JsonValue.arr xs)] from rfl] at hpv
      rcases List.mem_cons.mp hpv with rfl | hpv
      · intro s hsm
        rcases List.mem_cons.mp hsm with rfl | hsm
        · exact hk
        · exact absurd hsm (List.not_mem_nil s)
      · exact absurd hpv (List.not_mem_nil pv)
end

theorem foldl_joinKey_ne_of_ne (parent : String) (p q : List String)
    (hps : ∀ s ∈ p, noDotStr s = true) (hqs : ∀ s ∈ q, noDotStr s = true)
    (hcase : parent ≠ "" ∨
      (p ≠ [] ∧ q ≠ [] ∧ (∀ h t, p = h :: t → t ≠ [] → h ≠ "") ∧
       (∀ h t, q = h :: t → t ≠ [] → h ≠ "")))
    (hne : p ≠ q) :
    List.foldl joinKey parent p ≠ List.foldl joinKey parent q := by
  intro heq
  by_cases hpar : parent = ""
  · subst hpar
    rcases hcase with hp | ⟨hpn, hqn, hph, hqh⟩
    · exact absurd rfl hp
    · have h1 := splitDots_foldl_joinKey_root p hpn hps hph
      have h2 := splitDots_foldl_joinKey_root q hqn hqs hqh
      rw [heq] at h1
      rw [h2] at h1
      exact hne h1.symm
  · have h1 := splitDots_foldl_joinKey p parent hpar hps
    have h2 := splitDots_foldl_joinKey q parent hpar hqs
    rw [heq] at h1
    rw [h2] at h1
    exact hne (List.append_cancel_left h1).symm

mutual
theorem flattenFields_eq_leaves : ∀ (fs : Fields) (parent : String) (acc : Fields),
    primFields fs = true → nodupDeepFields fs = true → noDotFields fs = true →
    (parent ≠ "" ∨ topKeysOk fs = true) →
    (∀ pv ∈ leavesOf fs, List.foldl joinKey parent pv.1 ∉ keysOf acc) →
    flattenFields fs parent acc =
      acc ++ (leavesOf fs).map (fun pv => (List.foldl joinKey parent pv.1, pv.2))
  | [], parent, acc, _, _, _, _, _ => by
      rw [show flattenFields [] parent acc = acc from rfl]
      rw [show leavesOf ([] : Fields) = [] from rfl]
      simp
  | (k, v) :: rest, parent, acc, hp, hn, hd, hc, hf => by
      have hps := primFields_cons_split k v rest hp
      have hns := nodupDeepFields_cons_split k v rest hn
      have hds := noDotFields_cons_split k v rest hd
      have hcrest : parent ≠ "" ∨ topKeysOk rest = true := by
        rcases hc with h | h
        · exact Or.inl h
        · exact Or.inr (topKeysOk_cons_split k v rest h).2
      have hobjne : ∀ gs, v = JsonValue.obj gs → joinKey parent k ≠ "" := by
        intro gs hgs
        by_cases hpar : parent = ""
        · subst hpar
          rcases hc with h | h
          · exact absurd rfl h
          · have hk := (topKeysOk_cons_split k v rest h).1 gs hgs
            rw [show joinKey "" k = k from by unfold joinKey; rw [if_pos rfl]]
            exact hk
        · exact joinKey_ne_empty parent k hpar
      have hleq : leavesOf ((k, v) :: rest) = leavesOne k v ++ leavesOf rest := rfl
      have hfone : ∀ pv ∈ leavesOne k v, List.foldl joinKey parent pv.1 ∉ keysOf acc := by
        intro pv hpv
        exact hf pv (by rw [hleq]; exact List.mem_append.mpr (Or.inl hpv))
      have h1 := flattenOne_eq_leaves v k parent acc hps.1 hns.2.1 hds.2.1 hobjne hfone
      rw [show flattenFields ((k, v) :: rest) parent acc =
          flattenFields rest parent (flattenOne v (joinKey parent k) acc) from rfl]
      rw [h1]
      have hfrest : ∀ pv ∈ leavesOf rest, List.foldl joinKey parent pv.1 ∉
          keysOf (acc ++ (leavesOne k v).map
            (fun pv => (List.foldl joinKey parent pv.1, pv.2))) := by
        intro pv hpv
        have hkeys : keysOf (acc ++ (leavesOne k v).map
            (fun pv => (List.foldl joinKey parent pv.1, pv.2))) =
            keysOf acc ++ (leavesOne k v).map
              (fun pv => List.foldl joinKey parent pv.1) := by
          unfold keysOf
          rw [List.map_append, List.map_map]
          rfl
        rw [hkeys]
        intro hmem
        rcases List.mem_append.mp hmem with hmem | hmem
        · exact hf pv (by rw [hleq]; exact List.mem_append.mpr (Or.inr hpv)) hmem
        · rcases List.mem_map.mp hmem with ⟨pw, hpw, hpe⟩
          rcases leavesOne_head k v pw hpw with ⟨qw, hqw⟩
          rcases leavesOf_head_mem rest pv hpv with ⟨h', t', hpt, hmem'⟩
          have hhk : h' ≠ k := by
            intro he
            subst he
            exact hns.1 hmem'
          have hpvne : pw.1 ≠ pv.1 := by
            rw [hqw, hpt]
            intro he
            injection he with he1 _
            exact hhk he1.symm
          refine foldl_joinKey_ne_of_ne parent pw.1 pv.1 ?_ ?_ ?_ hpvne hpe
          · exact leavesOne_noDot k v hds.1 hds.2.1 pw hpw
          · exact leavesOf_noDot rest hds.2.2 pv hpv
          · by_cases hpar : parent = ""
            · subst hpar
              refine Or.inr ⟨?_, ?_, ?_, ?_⟩
              · rw [hqw]; simp
              · rw [hpt]; simp
              · refine leavesOne_headcond k v ?_ pw hpw
                intro gs hg
                rcases hc with h | h
                · exact absurd rfl h
                · exact (topKeysOk_cons_split k v rest h).1 gs hg
              · rcases hc with h | h
                · exact absurd rfl h
                · exact leavesOf_headcond rest (topKeysOk_cons_split k v rest h).2 pv hpv
            · exact Or.inl hpar
      have h2 := flattenFields_eq_leaves rest parent
          (acc ++ (leavesOne k v).map (fun pv => (List.foldl joinKey parent pv.1, pv.2)))
          hps.2 hns.2.2 hds.2.2 hcrest hfrest
      rw [h2, hleq]
      simp [List.map_append, List.append_assoc]

theorem flattenOne_eq_leaves : ∀ (v : JsonValue) (k : String) (parent : String) (acc : Fields),
    primTree v = true → nodupDeepV v = true → noDotV v = true →
    (∀ gs, v = JsonValue.obj gs → joinKey parent k ≠ "") →
    (∀ pv ∈ leavesOne k v, List.foldl joinKey parent pv.1 ∉ keysOf acc) →
    flattenOne v (joinKey parent k) acc =
      acc ++ (leavesOne k v).map (fun pv => (List.foldl joinKey parent pv.1, pv.2))
  | .obj fs, k, parent, acc, hp, hn, hd, hne, hfr => by
      rw [show flattenOne (.obj fs) (joinKey parent k) acc =
          flattenFields fs (joinKey parent k) acc from rfl]
      have hpf : primFields fs = true := by
        have h := hp
        rw [show primTree (.obj fs) = (!fs.isEmpty && primFields fs) from rfl] at h
        simp only [Bool.and_eq_true] at h
        exact h.2
      have hnf : nodupDeepFields fs = true := by
        rw [show nodupDeepV (.obj fs) = nodupDeepFields fs from rfl] at hn
        exact hn
      have hdf : noDotFields fs = true := by
        rw [show noDotV (.obj fs) = noDotFields fs from rfl] at hd
        exact hd
      have hfresh : ∀ pv ∈ leavesOf fs,
          List.foldl joinKey (joinKey parent k) pv.1 ∉ keysOf acc := by
        intro pv hpv
        have hmem : (k :: pv.1, pv.2) ∈ leavesOne k (.obj fs) := by
          rw [show leavesOne k (.obj fs) =
              (leavesOf fs).map (fun pv => (k :: pv.1, pv.2)) from rfl]
          exact List.mem_map.mpr ⟨pv, hpv, rfl⟩
        exact hfr (k :: pv.1, pv.2) hmem
      rw [flattenFields_eq_leaves fs (joinKey parent k) acc hpf hnf hdf
        (Or.inl (hne fs rfl)) hfresh]
      congr 1
      rw [show leavesOne k (.obj fs) =
          (leavesOf fs).map (fun pv => (k :: pv.1, pv.2)) from rfl]
      rw [List.map_map]
      rfl
  | .str s, k, parent, acc, _, _, _, _, hfr => by
      rw [show flattenOne (.str s) (joinKey parent k) acc =
          setVal acc (joinKey parent k) (JsonValue.str s) from rfl]
      have hnot : joinKey parent k ∉ keysOf acc :=
        hfr ([k], JsonValue.str s) (List.mem_cons_self _ _)
      rw [setVal_append_of_not_mem acc (joinKey parent k) (JsonValue.str s) hnot]
      rfl
  | .num n, k, parent, acc, _, _, _, _, hfr => by
      rw [show flattenOne (.num n) (joinKey parent k) acc =
          setVal acc (joinKey parent k) (JsonValue.num n) from rfl]
      have hnot : joinKey parent k ∉ keysOf acc :=
        hfr ([k], JsonValue.num n) (List.mem_cons_self _ _)
      rw [setVal_append_of_not_mem acc (joinKey parent k) (JsonValue.num n) hnot]
      rfl
  | .bool b, k, parent, acc, _, _, _, _, hfr => by
      rw [show flattenOne (.bool b) (joinKey parent k) acc =
          setVal acc (joinKey parent k) (JsonValue.bool b) from rfl]
      have hnot : joinKey parent k ∉ keysOf acc :=
        hfr ([k], JsonValue.bool b) (List.mem_cons_self _ _)
      rw [setVal_append_of_not_mem acc (joinKey parent k) (JsonValue.bool b) hnot]
      rfl
  | .null, k, parent, acc, _, _, _, _, hfr => by
      rw [show flattenOne .null (joinKey parent k) acc =
          setVal acc (joinKey parent k) JsonValue.null from rfl]
      have hnot : joinKey parent k ∉ keysOf acc :=
        hfr ([k], JsonValue.null) (List.mem_cons_self _ _)
      rw [setVal_append_of_not_mem acc (joinKey parent k) JsonValue.null hnot]
      rfl
  | .date t, k, parent, acc, hp, _, _, _, _ => by
      rw [show primTree (.date t) = false from rfl] at hp
      cases hp
  | .regex q, k, parent, acc, hp, _, _, _, _ => by
      rw [show primTree (.regex q) = false from rfl] at hp
      cases hp
  | .arr xs, k, parent, acc, hp, _, _, _, _ => by
      rw [show primTree (.arr xs) = false from rfl] at hp
      cases hp
end

theorem setVal_overwrite_append (acc : Fields) (k : String) (x y : JsonValue)
    (h : k ∉ keysOf acc) :
    setVal (acc ++ [(k, x)]) k y = acc ++ [(k, y)] := by
  unfold setVal
  have hany : ((acc ++ [(k, x)]).any (fun p => p.1 = k)) = true := by
    rw [List.any_eq_true]
    exact ⟨(k, x), by simp, by simp⟩
  rw [if_pos hany, List.map_append]
  congr 1
  · have h2 : List.map (fun p => if p.1 = k then (k, y) else p) acc =
        List.map id acc := by
      apply List.map_congr_left
      intro p hp
      have hpk : ¬ (p.1 = k) := by
        intro he
        apply h
        rw [← he]
        exact List.mem_map.mpr ⟨p, hp, rfl⟩
      rw [if_neg hpk]
      rfl
    rw [h2, List.map_id]
  · simp

theorem getVal_append_single (acc : Fields) (k : String) (x : JsonValue)
    (h : k ∉ keysOf acc) :
    getVal (acc ++ [(k, x)]) k = some x := by
  rw [getVal_append]
  rw [(getVal_none_iff_not_mem acc k).mpr h]
  simp [getVal]

theorem unflattenPaths_nested (k : String) (ls : List (List String × JsonValue)) :
    ∀ (acc sub : Fields), k ∉ keysOf acc → (∀ pv ∈ ls, pv.1 ≠ []) →
      unflattenPaths (acc ++ [(k, JsonValue.obj sub)])
          (ls.map (fun pv => (k :: pv.1, pv.2))) =
        acc ++ [(k, JsonValue.obj (unflattenPaths sub ls))] := by
  induction ls with
  | nil => intro acc sub _ _; rfl
  | cons pv0 ls' ih =>
      intro acc sub hk hne
      obtain ⟨p0, v0⟩ := pv0
      have hp0 : p0 ≠ [] := hne (p0, v0) (List.mem_cons_self _ _)
      rw [show unflattenPaths (acc ++ [(k, JsonValue.obj sub)])
          (((p0, v0) :: ls').map (fun pv => (k :: pv.1, pv.2))) =
          unflattenPaths (insertPath (acc ++ [(k, JsonValue.obj sub)]) (k :: p0) v0)
            (ls'.map (fun pv => (k :: pv.1, pv.2))) from rfl]
      cases p0 with
      | nil => exact absurd rfl hp0
      | cons s0 p0' =>
          have hins : insertPath (acc ++ [(k, JsonValue.obj sub)]) (k :: s0 :: p0') v0 =
              acc ++ [(k, JsonValue.obj (insertPath sub (s0 :: p0') v0))] := by
            rw [show insertPath (acc ++ [(k, JsonValue.obj sub)]) (k :: s0 :: p0') v0 =
                setVal (acc ++ [(k, JsonValue.obj sub)]) k
                  (JsonValue.obj (insertPath
                    (match getVal (acc ++ [(k, JsonValue.obj sub)]) k with
                     | some (JsonValue.obj gs) => gs
                     | _ => []) (s0 :: p0') v0)) from rfl]
            rw [getVal_append_single acc k (JsonValue.obj sub) hk]
            rw [setVal_overwrite_append acc k (JsonValue.obj sub) _ hk]
          rw [hins]
          rw [ih acc (insertPath sub (s0 :: p0') v0) hk
            (fun pv h => hne pv (List.mem_cons_of_mem _ h))]
          rfl

mutual
theorem unflattenPaths_leaves : ∀ (fs : Fields) (acc : Fields),
    primFields fs = true → nodupDeepFields fs = true →
    (∀ k ∈ keysOf fs, k ∉ keysOf acc) →
    unflattenPaths acc (leavesOf fs) = acc ++ fs
  | [], acc, _, _, _ => by
      rw [show leavesOf ([] : Fields) = [] from rfl]
      rw [show unflattenPaths acc [] = acc from rfl]
      simp
  | (k, v) :: rest, acc, hp, hn, hfr => by
      have hps := primFields_cons_split k v rest hp
      have hns := nodupDeepFields_cons_split k v rest hn
      have hkacc : k ∉ keysOf acc := hfr k (by simp [keysOf])
      rw [show leavesOf ((k, v) :: rest) = leavesOne k v ++ leavesOf rest from rfl]
      rw [show unflattenPaths acc (leavesOne k v ++ leavesOf rest) =
          unflattenPaths (unflattenPaths acc (leavesOne k v)) (leavesOf rest) from by
        unfold unflattenPaths
        rw [List.foldl_append]]
      rw [unflattenPaths_one k v acc hps.1 hns.2.1 hkacc]
      rw [unflattenPaths_leaves rest (acc ++ [(k, v)]) hps.2 hns.2.2 (by
        intro k' hk'
        have hkk : k' ≠ k := by
          intro he
          subst he
          exact hns.1 hk'
        have hk'acc : k' ∉ keysOf acc := hfr k' (by
          simp [keysOf]
          right
          simpa [keysOf] using hk')
        rw [show keysOf (acc ++ [(k, v)]) = keysOf acc ++ [k] from by simp [keysOf]]
        intro hmem
        rcases List.mem_append.mp hmem with h | h
        · exact hk'acc h
        · exact hkk (by simpa using h))]
      simp

theorem unflattenPaths_one : ∀ (k : String) (v : JsonValue) (acc : Fields),
    primTree v = true → nodupDeepV v = true → k ∉ keysOf acc →
    unflattenPaths acc (leavesOne k v) = acc ++ [(k, v)]
  | k, .obj fs, acc, hp, hn, hk => by
      have hobj : fs ≠ [] ∧ primFields fs = true := by
        have h := hp
        rw [show primTree (.obj fs) = (!fs.isEmpty && primFields fs) from rfl] at h
        simp only [Bool.and_eq_true] at h
        refine ⟨?_, h.2⟩
        intro he
        rw [he] at h
        simp at h
      have hnf : nodupDeepFields fs = true := by
        rw [show nodupDeepV (.obj fs) = nodupDeepFields fs from rfl] at hn
        exact hn
      rw [show leavesOne k (.obj fs) =
          (leavesOf fs).map (fun pv => (k :: pv.1, pv.2)) from rfl]
      cases hle : leavesOf fs with
      | nil => exact absurd hle (leavesOf_ne_nil fs hobj.2 hobj.1)
      | cons pv0 ls' =>
          obtain ⟨p0, v0⟩ := pv0
          have hp0ne : p0 ≠ [] := by
            rcases leavesOf_head_mem fs (p0, v0)
              (by rw [hle]; exact List.mem_cons_self _ _) with ⟨h', t', hpt, _⟩
            rw [show (p0, v0).1 = p0 from rfl] at hpt
            rw [hpt]
            simp
          rw [show ((( p0, v0) :: ls').map (fun pv => (k :: pv.1, pv.2))) =
              (k :: p0, v0) :: ls'.map (fun pv => (k :: pv.1, pv.2)) from rfl]
          rw [show unflattenPaths acc ((k :: p0, v0) :: ls'.map (fun pv => (k :: pv.1, pv.2))) =
              unflattenPaths (insertPath acc (k :: p0) v0)
                (ls'.map (fun pv => (k :: pv.1, pv.2))) from rfl]
          cases p0 with
          | nil => exact absurd rfl hp0ne
          | cons s0 p0' =>
              have hins : insertPath acc (k :: s0 :: p0') v0 =
                  acc ++ [(k, JsonValue.obj (insertPath [] (s0 :: p0') v0))] := by
                rw [show insertPath acc (k :: s0 :: p0') v0 =
                    setVal acc k (JsonValue.obj (insertPath
                      (match getVal acc k with
                       | some (JsonValue.obj gs) => gs
                       | _ => []) (s0 :: p0') v0)) from rfl]
                rw [(getVal_none_iff_not_mem acc k).mpr hk]
                rw [setVal_append_of_not_mem acc k _ hk]
              rw [hins]
              have hlsne : ∀ pv ∈ ls', pv.1 ≠ [] := by
                intro pv hpv
                rcases leavesOf_head_mem fs pv
                  (by rw [hle]; exact List.mem_cons_of_mem _ hpv) with ⟨h', t', hpt, _⟩
                rw [hpt]
                simp
              rw [unflattenPaths_nested k ls' acc (insertPath [] (s0 :: p0') v0) hk hlsne]
              have hinner : unflattenPaths (insertPath [] (s0 :: p0') v0) ls' =
                  unflattenPaths [] (leavesOf fs) := by
                rw [hle]
                rfl
              rw [hinner]
              rw [unflattenPaths_leaves fs [] hobj.2 hnf (by simp [keysOf])]
              simp
  | k, .str s, acc, _, _, hk => by
      rw [show leavesOne k (.str s) = [([k], JsonValue.str s)] from rfl]
      rw [show unflattenPaths acc [([k], JsonValue.str s)] =
          setVal acc k (JsonValue.str s) from rfl]
      exact setVal_append_of_not_mem acc k _ hk
  | k, .num n, acc, _, _, hk => by
      rw [show leavesOne k (.num n) = [([k], JsonValue.num n)] from rfl]
      rw [show unflattenPaths acc [([k], JsonValue.num n)] =
          setVal acc k (JsonValue.num n) from rfl]
      exact setVal_append_of_not_mem acc k _ hk
  | k, .bool b, acc, _, _, hk => by
      rw [show leavesOne k (.bool b) = [([k], JsonValue.bool b)] from rfl]
      rw [show unflattenPaths acc [([k], JsonValue.bool b)] =
          setVal acc k (JsonValue.bool b) from rfl]
      exact setVal_append_of_not_mem acc k _ hk
  | k, .null, acc, _, _, hk => by
      rw [show leavesOne k .null = [([k], JsonValue.null)] from rfl]
      rw [show unflattenPaths acc [([k], JsonValue.null)] =
          setVal acc k JsonValue.null from rfl]
      exact setVal_append_of_not_mem acc k _ hk
  | k, .date t, acc, hp, _, _ => by
      rw [show primTree (.date t) = false from rfl] at hp
      cases hp
  | k, .regex q, acc, hp, _, _ => by
      rw [show primTree (.regex q) = false from rfl] at hp
      cases hp
  | k, .arr xs, acc, hp, _, _ => by
      rw [show primTree (.arr xs) = false from rfl] at hp
      cases hp
end

theorem unflatten_flattenObject (fs : Fields)
    (hp : primFields fs = true) (hn : nodupDeepFields fs = true)
    (hd : noDotFields fs = true) (ht : topKeysOk fs = true) :
    unflatten (flattenObject fs) = fs := by
  have hflat : flattenObject fs =
      (leavesOf fs).map (fun pv => (List.foldl joinKey "" pv.1, pv.2)) := by
    unfold flattenObject
    rw [flattenFields_eq_leaves fs "" [] hp hn hd (Or.inr ht) (by simp [keysOf])]
    simp
  rw [hflat]
  have hunf : unflatten ((leavesOf fs).map (fun pv => (List.foldl joinKey "" pv.1, pv.2))) =
      unflattenPaths [] ((leavesOf fs).map
        (fun pv => (splitDots (List.foldl joinKey "" pv.1), pv.2))) := by
    unfold unflatten unflattenPaths
    rw [List.foldl_map, List.foldl_map]
  rw [hunf]
  have hsj : (leavesOf fs).map
      (fun pv => (splitDots (List.foldl joinKey "" pv.1), pv.2)) =
      (leavesOf fs).map (fun pv => pv) := by
    apply List.map_congr_left
    intro pv hpv
    have hne : pv.1 ≠ [] := by
      rcases leavesOf_head_mem fs pv hpv with ⟨h', t', hpt, _⟩
      rw [hpt]
      simp
    have hsegs := leavesOf_noDot fs hd pv hpv
    have hhead := leavesOf_headcond fs ht pv hpv
    rw [splitDots_foldl_joinKey_root pv.1 hne hsegs hhead]
  rw [hsj]
  rw [show (leavesOf fs).map (fun pv => pv) = leavesOf fs from List.map_id' _]
  rw [unflattenPaths_leaves fs [] hp hn (by simp [keysOf])]
  simp

/-- C6 counterexample: the round trip fails as universally stated.  A key
containing a dot (`{"a.b": 1}`, all leaves primitive) is re-nested by any
dot-path reconstruction, and a top-level empty-string key with an object
value (`{"": {b: 1}}`) is silently spliced into the top level by
`flattenObject` (the empty string is falsy in JavaScript), so neither
input is recovered. -/
theorem flatten_unflatten_counterexample :
    unflatten (flattenObject [("a.b", JsonValue.num 1)]) ≠
      [("a.b", JsonValue.num 1)] ∧
    unflatten (flattenObject [("", JsonValue.obj [("b", JsonValue.num 1)])]) ≠
      [("", JsonValue.obj [("b", JsonValue.num 1)])] := by
  constructor
  · intro h
    have he : unflatten (flattenObject [("a.b", JsonValue.num 1)]) =
        [("a", JsonValue.obj [("b", JsonValue.num 1)])] := rfl
    rw [he] at h
    simp at h
  · intro h
    have he : unflatten (flattenObject [("", JsonValue.obj [("b", JsonValue.num 1)])]) =
        [("b", JsonValue.num 1)] := rfl
    rw [he] at h
    simp at h

/-- C6 (amended): for every nested object all of whose leaf values are
primitives (an object value is itself non-empty at every level), whose
keys contain no `'.'` character at any depth, whose key lists are
duplicate-free (inherent in JS objects), and whose top level does not bind
the empty-string key to an object value, dot-path un-flattening recovers
the original object from `flattenObject` exactly; and `flattenObject`
never traverses into array or date values — such a value is emitted
verbatim as an atomic leaf under its dot-joined path key. -/
theorem flatten_unflatten_spec (fs : Fields)
    (hp : primFields fs = true) (hn : nodupDeepFields fs = true)
    (hd : noDotFields fs = true) (ht : topKeysOk fs = true) :
    unflatten (flattenObject fs) = fs ∧
    (∀ (k : String) (v : JsonValue) (rest : Fields) (parent : String) (result : Fields),
        isArrayV v = true ∨ isDateV v = true →
        flattenFields ((k, v) :: rest) parent result =
          flattenFields rest parent (setVal result (joinKey parent k) v)) := by
  refine ⟨unflatten_flattenObject fs hp hn hd ht, ?_⟩
  intro k v rest parent result hv
  cases v with
  | arr xs => rfl
  | date t => rfl
  | str s => rcases hv with hv | hv <;> simp [isArrayV, isDateV] at hv
  | num n => rcases hv with hv | hv <;> simp [isArrayV, isDateV] at hv
  | bool b => rcases hv with hv | hv <;> simp [isArrayV, isDateV] at hv
  | null => rcases hv with hv | hv <;> simp [isArrayV, isDateV] at hv
  | regex q => rcases hv with hv | hv <;> simp [isArrayV, isDateV] at hv
  | obj gs => rcases hv with hv | hv <;> simp [isArrayV, isDateV] at hv

/-- Witness for C6: the round trip on a concrete two-level tree, and the
atomicity equation at a concrete array value. -/
theorem flatten_unflatten_spec_witness :
    unflatten (flattenObject
      [("user", JsonValue.obj
        [("first_name", JsonValue.str "Jane"),
         ("contact", JsonValue.obj [("email", JsonValue.str "j@x.com")])]),
       ("age", JsonValue.num 30)]) =
      [("user", JsonValue.obj
        [("first_name", JsonValue.str "Jane"),
         ("contact", JsonValue.obj [("email", JsonValue.str "j@x.com")])]),
       ("age", JsonValue.num 30)] ∧
    flattenFields [("l", JsonValue.arr [JsonValue.num 1])] "" [] =
      flattenFields [] "" (setVal [] (joinKey "" "l") (JsonValue.arr [JsonValue.num 1])) :=
  ⟨(flatten_unflatten_spec
      [("user", JsonValue.obj
        [("first_name", JsonValue.str "Jane"),
         ("contact", JsonValue.obj [("email", JsonValue.str "j@x.com")])]),
       ("age", JsonValue.num 30)]
      (by decide) (by decide) (by decide) (by decide)).1,
   (flatten_unflatten_spec
      [("user", JsonValue.obj
        [("first_name", JsonValue.str "Jane"),
         ("contact", JsonValue.obj [("email", JsonValue.str "j@x.com")])]),
       ("age", JsonValue.num 30)]
      (by decide) (by decide) (by decide) (by decide)).2
     "l" (JsonValue.arr [JsonValue.num 1]) [] "" [] (Or.inl rfl)⟩
